import Mathlib

/-!
Verification of the repo-to-prompt context-production pipeline.

This file gives a shallow embedding, in Lean 4, of the parts of the Rust
code base that the checked claims are about, and proves (or refutes) each
claim against that embedding.

Modelling conventions used throughout:

* Rust f64 values are modelled by exact rationals. All arithmetic that the
  embedded functions perform (sums, products, divisions, rounding to three
  decimals) is exact on the inputs considered, so the rational model agrees
  with the double model except for double rounding error, which the claims
  are not about. Rust f64::round rounds halves away from zero; the Lean
  round function rounds halves up. The two agree on nonnegative inputs,
  which is the only regime the embedded pipeline produces.
* Rust String and str are modelled by Lean String, with character-level
  helpers implemented structurally over List Char so that concrete runs
  reduce inside the kernel. Rust char::is_alphanumeric and
  char::is_whitespace are modelled by their ASCII restrictions
  (Char.isAlphanum, Char.isWhitespace); the repository contents the claims
  quantify over are ASCII.
* Rust HashMap / HashSet / BTreeSet are modelled by association lists and
  lists. Where the Rust iteration order of a hash container is
  nondeterministic, the embedded code only ever combines entries with
  order-insensitive operations (maximum merge, set insert), or sorts by a
  total key afterwards, so the deterministic list model is observationally
  equivalent.
* SQLite tables are modelled by lists of row records; the SQL statements
  executed by the code are modelled by the corresponding list operations,
  including the ON DELETE CASCADE behaviour of the declared foreign keys.
* f64::ln, used by the BM25 scorer, is kept abstract: the scoring function
  takes the logarithm as an explicit function parameter, and theorems that
  need a property of it assume only that it is positive on arguments
  greater than one, which holds for the real logarithm.
-/

namespace R2P

/-! ### Numeric basics -/

/-- Rounding to three decimals, as performed by the Rust idiom
((x * 1000.0).round() / 1000.0). -/
def round3 (x : ℚ) : ℚ := ((round (x * 1000) : ℤ) : ℚ) / 1000

/-- Model of f64::clamp(0.0, 1.0). -/
def clamp01 (x : ℚ) : ℚ := min (max x 0) 1

/-! ### Character and string helpers (structural models of the Rust str API) -/

/-- Token characters of the tokenizers in rank/bm25.rs, rank/mod.rs and
cli/query.rs: the split predicate keeps characters that are alphanumeric or
an underscore. -/
def isTokenChar (c : Char) : Bool := c.isAlphanum || c = '_'

/-- Model of Rust str::split with a character predicate p marking
separators: pieces between separators are kept, including empty pieces. -/
def rustSplit (p : Char → Bool) : List Char → List (List Char)
  | [] => [[]]
  | c :: cs =>
    if p c then [] :: rustSplit p cs
    else
      match rustSplit p cs with
      | [] => [[c]]
      | t :: ts => (c :: t) :: ts

/-- Model of Rust str::trim (ASCII whitespace restriction). -/
def trimChars (l : List Char) : List Char :=
  ((l.dropWhile Char.isWhitespace).reverse.dropWhile Char.isWhitespace).reverse

/-- Shared tokenizer of rank/bm25.rs, rank/mod.rs and cli/query.rs: split on
characters that are neither alphanumeric nor an underscore, trim, fold to
ASCII lower case, and keep the tokens of length at least two. -/
def tokenize (s : String) : List String :=
  ((rustSplit (fun c => !(isTokenChar c)) s.data).map
      (fun t => String.mk ((trimChars t).map Char.toLower))).filter
    (fun t => 2 ≤ t.length)

/-- Specification-side tokenizer: the maximal runs of token characters,
case-folded, of length at least two. Used to state that the source
tokenizer extracts exactly the maximal alphanumeric-or-underscore runs. -/
def tokenRuns : List Char → List (List Char)
  | [] => []
  | c :: cs =>
    if isTokenChar c then
      (c :: cs.takeWhile isTokenChar) :: tokenRuns (cs.dropWhile isTokenChar)
    else
      tokenRuns cs
termination_by l => l.length
decreasing_by
  · simp only [List.length_cons]
    exact Nat.lt_succ_of_le (List.dropWhile_sublist _).length_le
  · simp

/-- Specification-side tokenizer on strings (see tokenRuns). -/
def tokenizeSpec (s : String) : List String :=
  ((tokenRuns s.data).map (fun t => String.mk (t.map Char.toLower))).filter
    (fun t => 2 ≤ t.length)

/-! ### Domain records (domain/mod.rs) -/

/-- Model of domain::FileInfo (the fields the embedded pipeline reads). -/
structure FileInfo where
  path : String
  relative_path : String
  size_bytes : ℕ
  extension : String
  language : String
  id : String
  priority : ℚ
  token_estimate : ℕ
  deriving Repr, DecidableEq

/-- Model of domain::Chunk. Tags are a BTreeSet of strings in Rust; they are
modelled as a list, and the embedded code only reads them through
membership. -/
structure Chunk where
  id : String
  path : String
  language : String
  start_line : ℕ
  end_line : ℕ
  content : String
  priority : ℚ
  tags : List String
  token_estimate : ℕ
  deriving Repr, DecidableEq

/-- Dropped-file record pushed into ScanStats.dropped_files. The byte-budget
filter records path, reason and priority; the token-budget filter
additionally records the token and chunk counts. -/
structure DroppedFile where
  path : String
  reason : String
  priority : ℚ
  tokens : Option ℕ
  chunks : Option ℕ
  deriving Repr, DecidableEq

/-- Model of domain::ScanStats (the fields the embedded functions touch). -/
structure ScanStats where
  files_dropped_budget : ℕ
  dropped_files : List DroppedFile
  total_bytes_included : ℕ
  deriving Repr, DecidableEq

/-! ### Byte budget (cli/export.rs apply_byte_budget; cli/index.rs has a
byte-for-byte identical copy) -/

/-- Dropped-file record written by apply_byte_budget: reason bytes_limit,
priority recorded as is. -/
def bytesLimitRecord (f : FileInfo) : DroppedFile :=
  { path := f.relative_path, reason := "bytes_limit", priority := f.priority,
    tokens := none, chunks := none }

/-- Loop body of apply_byte_budget: walk the ranked files accumulating
size_bytes; at the first file considered when the running total has already
reached the limit, bulk-drop that file and every remaining file. Returns
(selected, dropped records, final total). -/
def byteBudgetLoop (limit : ℕ) : List FileInfo → ℕ → List FileInfo × List DroppedFile × ℕ
  | [], total => ([], [], total)
  | f :: rest, total =>
    if limit ≤ total then
      ([], (f :: rest).map bytesLimitRecord, total)
    else
      let r := byteBudgetLoop limit rest (total + f.size_bytes)
      (f :: r.1, r.2.1, r.2.2)

/-- Model of apply_byte_budget (cli/export.rs lines 950 to 980 and the
identical cli/index.rs lines 449 to 477). -/
def apply_byte_budget (ranked_files : List FileInfo) (max_total_bytes : Option ℕ)
    (stats : ScanStats) : List FileInfo × ScanStats :=
  match max_total_bytes with
  | none => (ranked_files, stats)
  | some limit =>
    let r := byteBudgetLoop limit ranked_files 0
    (r.1,
      { stats with
        files_dropped_budget := stats.files_dropped_budget + r.2.1.length,
        dropped_files := stats.dropped_files ++ r.2.1,
        total_bytes_included := r.2.2 })

/-! ### Index database location (cli/export.rs find_index_db, cli/index.rs
IndexArgs db default) -/

/-- Model of cli/export.rs find_index_db (lines 754 to 761): the only probed
candidate is root/.repo-context/index.sqlite. The filesystem is abstracted
by the existence predicate. -/
def find_index_db (pathExists : String → Bool) (root_path : String) : Option String :=
  let candidate := root_path ++ "/.repo-context/index.sqlite"
  if pathExists candidate then some candidate else none

/-- Default value of the db argument of the index subcommand
(cli/index.rs line 40). -/
def indexDefaultDb : String := ".repo-to-prompt/index.sqlite"

/-! ### Configuration merge (config/merge.rs) -/

/-- Model of domain::OutputMode (variants per cli/export.rs parse_mode). -/
inductive OutputMode where
  | Prompt | Rag | Contribution | PrContext | Both
  deriving Repr, DecidableEq

/-- Model of domain::RedactionMode (variants per cli/export.rs
parse_redaction_mode). -/
inductive RedactionMode where
  | Fast | Standard | Paranoid | StructureSafe
  deriving Repr, DecidableEq

/-- Model of domain::Config (the fields merge_cli_with_config writes).
PathBuf is modelled as String; the HashSet fields as lists. -/
structure Config where
  path : Option String
  repo_url : Option String
  ref_ : Option String
  include_extensions : List String
  exclude_globs : List String
  max_file_bytes : ℕ
  max_total_bytes : ℕ
  respect_gitignore : Bool
  follow_symlinks : Bool
  skip_minified : Bool
  max_tokens : Option ℕ
  task_query : Option String
  chunk_tokens : ℕ
  chunk_overlap : ℕ
  min_chunk_tokens : ℕ
  mode : OutputMode
  output_dir : String
  tree_depth : ℕ
  redact_secrets : Bool
  redaction_mode : RedactionMode
  deriving Repr, DecidableEq

/-- Model of config::merge::CliOverrides. -/
structure CliOverrides where
  path : Option String
  repo_url : Option String
  ref_ : Option String
  include_extensions : Option (List String)
  exclude_globs : Option (List String)
  max_file_bytes : Option ℕ
  max_total_bytes : Option ℕ
  respect_gitignore : Option Bool
  follow_symlinks : Option Bool
  skip_minified : Option Bool
  max_tokens : Option ℕ
  task_query : Option String
  chunk_tokens : Option ℕ
  chunk_overlap : Option ℕ
  min_chunk_tokens : Option ℕ
  mode : Option OutputMode
  output_dir : Option String
  tree_depth : Option ℕ
  redact_secrets : Option Bool
  redaction_mode : Option RedactionMode
  deriving Repr, DecidableEq

/-- Helper modelling the repeated Rust idiom
(if let Some(v) = cli.field, then mutate the config): apply the update when
the override is present, keep the config otherwise. -/
def optUpd {α : Type} (o : Option α) (f : α → Config) (c : Config) : Config :=
  match o with
  | some v => f v
  | none => c

/-- One Rust if-let block of merge_cli_with_config: the path override sets
path and clears repo_url. -/
def upd_path (cli : CliOverrides) (c : Config) : Config :=
  optUpd cli.path (fun path => { c with path := some path, repo_url := none }) c

/-- One Rust if-let block of merge_cli_with_config: the repo_url override
sets repo_url and clears path. -/
def upd_repo_url (cli : CliOverrides) (c : Config) : Config :=
  optUpd cli.repo_url (fun repo_url => { c with repo_url := some repo_url, path := none }) c

/-- One Rust if-let block of merge_cli_with_config (the ref_ override). -/
def upd_ref_ (cli : CliOverrides) (c : Config) : Config :=
  optUpd cli.ref_ (fun r => { c with ref_ := some r }) c

/-- One Rust if-let block of merge_cli_with_config (the include_extensions override). -/
def upd_include_extensions (cli : CliOverrides) (c : Config) : Config :=
  optUpd cli.include_extensions (fun v => { c with include_extensions := v }) c

/-- One Rust if-let block of merge_cli_with_config (the exclude_globs override). -/
def upd_exclude_globs (cli : CliOverrides) (c : Config) : Config :=
  optUpd cli.exclude_globs (fun v => { c with exclude_globs := v }) c

/-- One Rust if-let block of merge_cli_with_config (the max_file_bytes override). -/
def upd_max_file_bytes (cli : CliOverrides) (c : Config) : Config :=
  optUpd cli.max_file_bytes (fun v => { c with max_file_bytes := v }) c

/-- One Rust if-let block of merge_cli_with_config (the max_total_bytes override). -/
def upd_max_total_bytes (cli : CliOverrides) (c : Config) : Config :=
  optUpd cli.max_total_bytes (fun v => { c with max_total_bytes := v }) c

/-- One Rust if-let block of merge_cli_with_config (the respect_gitignore override). -/
def upd_respect_gitignore (cli : CliOverrides) (c : Config) : Config :=
  optUpd cli.respect_gitignore (fun v => { c with respect_gitignore := v }) c

/-- One Rust if-let block of merge_cli_with_config (the follow_symlinks override). -/
def upd_follow_symlinks (cli : CliOverrides) (c : Config) : Config :=
  optUpd cli.follow_symlinks (fun v => { c with follow_symlinks := v }) c

/-- One Rust if-let block of merge_cli_with_config (the skip_minified override). -/
def upd_skip_minified (cli : CliOverrides) (c : Config) : Config :=
  optUpd cli.skip_minified (fun v => { c with skip_minified := v }) c

/-- One Rust if-let block of merge_cli_with_config (the max_tokens override). -/
def upd_max_tokens (cli : CliOverrides) (c : Config) : Config :=
  optUpd cli.max_tokens (fun v => { c with max_tokens := some v }) c

/-- One Rust if-let block of merge_cli_with_config (the task_query override). -/
def upd_task_query (cli : CliOverrides) (c : Config) : Config :=
  optUpd cli.task_query (fun v => { c with task_query := some v }) c

/-- One Rust if-let block of merge_cli_with_config (the chunk_tokens override). -/
def upd_chunk_tokens (cli : CliOverrides) (c : Config) : Config :=
  optUpd cli.chunk_tokens (fun v => { c with chunk_tokens := v }) c

/-- One Rust if-let block of merge_cli_with_config (the chunk_overlap override). -/
def upd_chunk_overlap (cli : CliOverrides) (c : Config) : Config :=
  optUpd cli.chunk_overlap (fun v => { c with chunk_overlap := v }) c

/-- One Rust if-let block of merge_cli_with_config (the min_chunk_tokens override). -/
def upd_min_chunk_tokens (cli : CliOverrides) (c : Config) : Config :=
  optUpd cli.min_chunk_tokens (fun v => { c with min_chunk_tokens := v }) c

/-- One Rust if-let block of merge_cli_with_config (the mode override). -/
def upd_mode (cli : CliOverrides) (c : Config) : Config :=
  optUpd cli.mode (fun v => { c with mode := v }) c

/-- One Rust if-let block of merge_cli_with_config (the output_dir override). -/
def upd_output_dir (cli : CliOverrides) (c : Config) : Config :=
  optUpd cli.output_dir (fun v => { c with output_dir := v }) c

/-- One Rust if-let block of merge_cli_with_config (the tree_depth override). -/
def upd_tree_depth (cli : CliOverrides) (c : Config) : Config :=
  optUpd cli.tree_depth (fun v => { c with tree_depth := v }) c

/-- One Rust if-let block of merge_cli_with_config (the redact_secrets override). -/
def upd_redact_secrets (cli : CliOverrides) (c : Config) : Config :=
  optUpd cli.redact_secrets (fun v => { c with redact_secrets := v }) c

/-- One Rust if-let block of merge_cli_with_config (the redaction_mode override). -/
def upd_redaction_mode (cli : CliOverrides) (c : Config) : Config :=
  optUpd cli.redaction_mode (fun v => { c with redaction_mode := v }) c

/-- Model of config::merge::merge_cli_with_config (config/merge.rs lines 31
to 99): each present CLI override replaces the config value; the path
override clears repo_url, and the repo_url override, applied after it,
clears path. Each Rust if-let block is rendered as one upd helper, applied
in the source order. -/
def merge_cli_with_config (base_config : Config) (cli : CliOverrides) : Config :=
  upd_redaction_mode cli (upd_redact_secrets cli (upd_tree_depth cli (upd_output_dir cli (upd_mode cli (upd_min_chunk_tokens cli (upd_chunk_overlap cli (upd_chunk_tokens cli (upd_task_query cli (upd_max_tokens cli (upd_skip_minified cli (upd_follow_symlinks cli (upd_respect_gitignore cli (upd_max_total_bytes cli (upd_max_file_bytes cli (upd_exclude_globs cli (upd_include_extensions cli (upd_ref_ cli (upd_repo_url cli (upd_path cli base_config)))))))))))))))))))

/-! ### Token budget (cli/export.rs run, lines 262 to 344) -/

/-- One selected file as the token-budget stage of cli/export.rs run sees
it: its FileInfo plus the result of process_export_file, which reads,
redacts and chunks the file; none models an unreadable file (silently
skipped). The chunking itself (crate chunk, not under scrutiny here) is
abstracted by taking the produced chunk list as input. -/
structure ExportFile where
  info : FileInfo
  chunks : Option (List Chunk)
  deriving Repr, DecidableEq

/-- Token sum of a chunk list (file_chunks.iter().map(token_estimate).sum()). -/
def fileChunkTokens (cs : List Chunk) : ℕ := (cs.map Chunk.token_estimate).sum

/-- Dropped-file record written by the token-budget loop: reason
token_budget, priority rounded to three decimals, token and chunk counts. -/
def tokenBudgetRecord (f : FileInfo) (file_tokens nchunks : ℕ) : DroppedFile :=
  { path := f.relative_path, reason := "token_budget", priority := round3 f.priority,
    tokens := some file_tokens, chunks := some nchunks }

/-- Always-include pass (export.rs lines 276 to 289): process each
always-include file in selection order, accumulating its chunks and its
token sum; unreadable files are skipped. -/
def alwaysPass (always_files : List ExportFile) : List Chunk × ℕ :=
  always_files.foldl
    (fun acc f =>
      match f.chunks with
      | none => acc
      | some cs => (acc.1 ++ cs, acc.2 + fileChunkTokens cs))
    ([], 0)

/-- Error message of the over-budget bail (export.rs lines 292 to 296). -/
def budgetErrMsg (always_tokens m : ℕ) : String :=
  s!"always-include files require {always_tokens} tokens but max_tokens={m}; use --allow-over-budget to proceed"

/-- Remaining budget for normal files (export.rs lines 300 to 311):
max_tokens.saturating_sub(always_tokens), with the explicit reset to zero
when the always-include tokens exceed max_tokens; on naturals the reset
branch coincides with the saturating subtraction. -/
def remainingBudget (max_tokens : Option ℕ) (always_tokens : ℕ) : Option ℕ :=
  match max_tokens with
  | some m => if m < always_tokens then some 0 else some (m - always_tokens)
  | none => none

/-- One iteration of the normal-file loop (export.rs lines 313 to 344) on
the state (accumulated chunks, dropped records, normal token total):
unreadable files are skipped; with a budget, a file whose token sum would
push the normal total over it is dropped and recorded; otherwise its chunks
are appended and its tokens counted. -/
def normalStep (remaining : Option ℕ) (st : List Chunk × List DroppedFile × ℕ)
    (f : ExportFile) : List Chunk × List DroppedFile × ℕ :=
  match f.chunks with
  | none => st
  | some cs =>
    let file_tokens := fileChunkTokens cs
    match remaining with
    | some budget =>
      if budget < st.2.2 + file_tokens then
        (st.1, st.2.1 ++ [tokenBudgetRecord f.info file_tokens cs.length], st.2.2)
      else
        (st.1 ++ cs, st.2.1, st.2.2 + file_tokens)
    | none => (st.1 ++ cs, st.2.1, st.2.2 + file_tokens)

/-- The normal-file loop run over the whole normal list, starting from the
always-include chunks; returns (all accepted chunks, dropped records,
always tokens, normal tokens). -/
def normalPhase (remaining : Option ℕ) (ap : List Chunk × ℕ)
    (normal_files : List ExportFile) : List Chunk × List DroppedFile × ℕ × ℕ :=
  let np := normal_files.foldl (normalStep remaining) (ap.1, [], 0)
  (np.1, np.2.1, ap.2, np.2.2)

/-- Always-include part of the selected files, in order: the partition of
export.rs lines 263 to 274, with the globset match abstracted as a
predicate on relative paths. -/
def alwaysFilesOf (isAlwaysInclude : String → Bool) (selected_files : List ExportFile) :
    List ExportFile :=
  selected_files.filter (fun f => isAlwaysInclude f.info.relative_path)

/-- Normal (not always-include) part of the selected files, in order. -/
def normalFilesOf (isAlwaysInclude : String → Bool) (selected_files : List ExportFile) :
    List ExportFile :=
  selected_files.filter (fun f => !(isAlwaysInclude f.info.relative_path))

/-- Token-budget stage of cli/export.rs run (lines 262 to 344): partition
the selected files into always-include and normal, process the
always-include files, fail when their token sum exceeds max_tokens without
allow_over_budget, then stream the normal files against the remaining
budget. -/
def run_token_budget (max_tokens : Option ℕ) (allow_over_budget : Bool)
    (isAlwaysInclude : String → Bool) (selected_files : List ExportFile) :
    Except String (List Chunk × List DroppedFile × ℕ × ℕ) :=
  let always_files := alwaysFilesOf isAlwaysInclude selected_files
  let normal_files := normalFilesOf isAlwaysInclude selected_files
  let ap := alwaysPass always_files
  match max_tokens with
  | some m =>
    if m < ap.2 && !allow_over_budget then
      Except.error (budgetErrMsg ap.2 m)
    else
      Except.ok (normalPhase (remainingBudget (some m) ap.2) ap normal_files)
  | none => Except.ok (normalPhase none ap normal_files)

/-- Claim-side recursion for the normal-file loop: given the remaining
budget and the running normal-token total, a readable file is accepted
exactly when its chunk-token sum does not push the total over the budget,
and is otherwise dropped and recorded while the already accepted chunks
are untouched. -/
def normalSelect (budget : ℕ) : List ExportFile → ℕ → List Chunk × List DroppedFile × ℕ
  | [], acc => ([], [], acc)
  | f :: rest, acc =>
    match f.chunks with
    | none => normalSelect budget rest acc
    | some cs =>
      let ft := fileChunkTokens cs
      if budget < acc + ft then
        let r := normalSelect budget rest acc
        (r.1, tokenBudgetRecord f.info ft cs.length :: r.2.1, r.2.2)
      else
        let r := normalSelect budget rest (acc + ft)
        (cs ++ r.1, r.2.1, r.2.2)

/-! ### Stitch-story sort (cli/export.rs sort_group and
sort_chunks_for_stitch_story, lines 855 to 887) -/

/-- Model of rank::StitchTier, reconstructed from the four variants matched
in cli/export.rs sort_group (the defining module is not among the provided
sources; the sort only distinguishes these four variants). -/
inductive StitchTier where
  | Definition | Callee | Caller | CrossCrate
  deriving Repr, DecidableEq

/-- Three-way comparison on rationals, modelling f64 partial_cmp
unwrapped to Equal; on the rational model the comparison is total. -/
def cmpQ (a b : ℚ) : Ordering := if a < b then .lt else if b < a then .gt else .eq

/-- Three-way comparison on strings (Rust String Ord). -/
def cmpS (a b : String) : Ordering := if a < b then .lt else if b < a then .gt else .eq

/-- Three-way comparison on naturals (Rust usize and u8 Ord). -/
def cmpN (a b : ℕ) : Ordering := if a < b then .lt else if b < a then .gt else .eq

/-- Model of cli/export.rs sort_group: seeds sort as 0, then the stitched
tiers Definition, Callee, Caller, CrossCrate as 1 to 4, and every other
chunk as 5. The BTreeSet of seed ids is modelled as a list, the stitched
HashMap as a lookup function. -/
def sort_group (seed_ids : List String) (stitched : String → Option StitchTier)
    (c : Chunk) : ℕ :=
  if c.id ∈ seed_ids then 0
  else
    match stitched c.id with
    | some .Definition => 1
    | some .Callee => 2
    | some .Caller => 3
    | some .CrossCrate => 4
    | none => 5

/-- Comparator of cli/export.rs sort_chunks_for_stitch_story: group key,
then priority descending, then path, then start line, then id. -/
def stitchCmp (seed_ids : List String) (stitched : String → Option StitchTier)
    (a b : Chunk) : Ordering :=
  (cmpN (sort_group seed_ids stitched a) (sort_group seed_ids stitched b)).then
    ((cmpQ b.priority a.priority).then
      ((cmpS a.path b.path).then
        ((cmpN a.start_line b.start_line).then (cmpS a.id b.id))))

/-- Model of cli/export.rs sort_chunks_for_stitch_story: a stable sort by
the stitchCmp comparator (an element may precede another exactly when the
comparator does not answer Greater). -/
def sort_chunks_for_stitch_story (chunks : List Chunk) (seed_ids : List String)
    (stitched : String → Option StitchTier) : List Chunk :=
  chunks.mergeSort (fun a b => decide (stitchCmp seed_ids stitched a b ≠ Ordering.gt))

/-- Sort key of the stitch-story order, written as a lexicographic tuple:
group, priority reversed, path, start line, id. The sort is proved to order
the chunks by this key. -/
def storyKey (seed_ids : List String) (stitched : String → Option StitchTier)
    (c : Chunk) : ℕ ×ₗ (ℚᵒᵈ ×ₗ (String ×ₗ (ℕ ×ₗ String))) :=
  toLex (sort_group seed_ids stitched c,
    toLex (OrderDual.toDual c.priority,
      toLex (c.path, toLex (c.start_line, c.id))))

/-! ### Additional string helpers for rank/mod.rs (structural models of the
Rust str API used there) -/

/-- Apostrophe character (written by code point to keep the source free of
quote literals). -/
def squote : Char := Char.ofNat 39

/-- Double-quote character (written by code point, as squote). -/
def dquote : Char := Char.ofNat 34

/-- Backslash character (written by code point, as squote). -/
def bslash : Char := Char.ofNat 92

/-- Model of Rust str::trim on strings. -/
def trimStr (s : String) : String := String.mk (trimChars s.data)

/-- ASCII lower-casing of a string (to_ascii_lowercase). -/
def toLowerStr (s : String) : String := String.mk (s.data.map Char.toLower)

/-- Helper for strip_prefix and substring search: remove the given leading
characters, or answer none. -/
def stripPre (pre : List Char) : List Char → Option (List Char)
  | l =>
    match pre, l with
    | [], l => some l
    | _ :: _, [] => none
    | p :: ps, x :: xs => if x = p then stripPre ps xs else none

/-- Model of Rust str::strip_prefix. -/
def stripPreStr (s pre : String) : Option String :=
  (stripPre pre.data s.data).map String.mk

/-- Model of Rust str::starts_with. -/
def startsWithStr (s pre : String) : Bool := (stripPre pre.data s.data).isSome

/-- Model of Rust str::ends_with. -/
def endsWithStr (s suf : String) : Bool :=
  (stripPre suf.data.reverse s.data.reverse).isSome

/-- Model of Rust str::lines: split on newline, drop a final empty piece,
strip one trailing carriage return per line. -/
def rustLines (s : String) : List String :=
  let parts := rustSplit (fun c => c = '\n') s.data
  let parts := if parts.getLast? = some [] then parts.dropLast else parts
  parts.map (fun l => String.mk (if l.getLast? = some '\r' then l.dropLast else l))

/-- Model of Rust str::split_whitespace: split on whitespace, dropping empty
pieces. -/
def splitWs (s : String) : List String :=
  ((rustSplit Char.isWhitespace s.data).filter (fun t => t ≠ [])).map String.mk

/-- Model of Rust str::trim_matches with a single-character pattern:
repeatedly strip that character from both ends. -/
def trimMatchesChar (c : Char) (s : String) : String :=
  String.mk (((s.data.dropWhile (· = c)).reverse.dropWhile (· = c)).reverse)

/-- Substring search: the remainder of the text after the first occurrence
of the marker (Rust str::find followed by indexing past the marker). -/
def findTail (marker : List Char) : List Char → Option (List Char)
  | [] => match stripPre marker [] with | some rest => some rest | none => none
  | x :: xs =>
    match stripPre marker (x :: xs) with
    | some rest => some rest
    | none => findTail marker xs

/-- Model of Rust str::trim_start_matches: repeatedly remove the prefix.
The fuel argument (the text length suffices) makes the recursion
structural; each successful strip of a nonempty prefix shortens the text. -/
def repStripAux (pre : List Char) : ℕ → List Char → List Char
  | 0, l => l
  | fuel + 1, l =>
    match pre, stripPre pre l with
    | _ :: _, some rest => repStripAux pre fuel rest
    | _, _ => l

/-- Model of Rust str::trim_start_matches on strings. -/
def trimStartMatches (pre : String) (s : String) : String :=
  String.mk (repStripAux pre.data s.data.length s.data)

/-- Model of Rust str::replace (all occurrences), by fuel recursion. -/
def replaceAux (pat repl : List Char) : ℕ → List Char → List Char
  | 0, l => l
  | _ + 1, [] => []
  | fuel + 1, x :: xs =>
    match pat, stripPre pat (x :: xs) with
    | _ :: _, some rest => repl ++ replaceAux pat repl fuel rest
    | _, _ => x :: replaceAux pat repl fuel xs

/-- Model of Rust str::replace on strings. -/
def replaceStr (s pat repl : String) : String :=
  String.mk (replaceAux pat.data repl.data s.data.length s.data)

/-- Model of Rust str::replace with a single-character pattern. -/
def replaceChar (a b : Char) (s : String) : String :=
  String.mk (s.data.map (fun c => if c = a then b else c))

/-- Ascending, duplicate-free string list: the model of a BTreeSet of
strings (iteration in ascending order). -/
def sortedDedupStrings (l : List String) : List String :=
  (l.mergeSort (fun a b => decide (a ≤ b))).dedup

/-! ### BM25 scoring (rank/bm25.rs) -/

/-- BM25 k1 constant (rank/bm25.rs line 6). -/
def K1 : ℚ := 3 / 2

/-- BM25 b constant (rank/bm25.rs line 7). -/
def B : ℚ := 3 / 4

/-- Document frequency: in how many token lists a term occurs (the doc_freq
map of rank/bm25.rs built from per-document unique token sets). -/
def docFreq (docs : List (List String)) (term : String) : ℕ :=
  (docs.filter (fun d => term ∈ d)).length

/-- Term frequency of a term in one document. -/
def termFreq (doc : List String) (term : String) : ℕ :=
  (doc.filter (fun t => t = term)).length

/-- BM25 score of one document against the query terms (the per-document
closure of rank/bm25.rs lines 38 to 62); log is the abstract model of
f64::ln. -/
def bm25DocScore (log : ℚ → ℚ) (query_terms : List String) (doc_freq : String → ℕ)
    (total_docs avg_doc_len : ℚ) (doc : List String) : ℚ :=
  if doc = [] then 0
  else
    let dl : ℚ := (doc.length : ℚ)
    query_terms.foldl
      (fun acc term =>
        let tf : ℚ := ((termFreq doc term : ℕ) : ℚ)
        if tf ≤ 0 then acc
        else
          let df : ℚ := ((doc_freq term : ℕ) : ℚ)
          let idf := log ((total_docs - df + 1 / 2) / (df + 1 / 2) + 1)
          let denom := tf + K1 * (1 - B + B * (dl / avg_doc_len))
          acc + idf * ((tf * (K1 + 1)) / denom))
      0

/-- Model of rank/bm25.rs score_query_against_chunks. -/
def score_query_against_chunks (log : ℚ → ℚ) (chunks : List Chunk) (query : String) :
    List ℚ :=
  if chunks = [] then []
  else
    let query_terms := tokenize query
    if query_terms = [] then chunks.map (fun _ => 0)
    else
      let docs := chunks.map (fun c => tokenize c.content)
      let total_len : ℕ := (docs.map List.length).sum
      let avg_doc_len : ℚ := max ((total_len : ℚ) / ((chunks.length : ℕ) : ℚ)) 1
      let total_docs : ℚ := ((chunks.length : ℕ) : ℚ)
      docs.map (bm25DocScore log query_terms (docFreq docs) total_docs avg_doc_len)

/-! ### Task reranking, step 1 (rank/mod.rs rerank_chunks_by_task,
lines 14 to 42) -/

/-- Maximum of the lexical scores, starting from zero (rank/mod.rs
lines 22 to 25). -/
def maxScore (scores : List ℚ) : ℚ := scores.foldl max 0

/-- Normalization of one lexical score by the maximum (rank/mod.rs
line 31). -/
def normalizedScore (max_score lexical : ℚ) : ℚ :=
  if 0 < max_score then lexical / max_score else 0

/-- The new chunk priority after the step-1 blend (rank/mod.rs lines 32
to 33). -/
def step1Priority (weight max_score priority lexical : ℚ) : ℚ :=
  round3 (priority * (1 - weight) + normalizedScore max_score lexical * weight)

/-- Step-1 part of rerank_chunks_by_task: clamp the weight, score the
chunks, blend each priority with its normalized lexical score. -/
def rerank_step1 (log : ℚ → ℚ) (chunks : List Chunk) (query : String)
    (relevance_weight : ℚ) : List Chunk :=
  let weight := clamp01 relevance_weight
  let lexical_scores := score_query_against_chunks log chunks query
  let m := maxScore lexical_scores
  (chunks.zip lexical_scores).map
    (fun p => { p.1 with priority := step1Priority weight m p.1.priority p.2 })

/-- HashMap entry().and_modify(max).or_insert on an association list: the
model of the lexical_by_file and file_scores maps of rank/mod.rs. -/
def lexByFileUpsert (m : List (String × ℚ)) (k : String) (v : ℚ) : List (String × ℚ) :=
  if m.any (fun e => e.1 = k) then
    m.map (fun e => if e.1 = k then (e.1, max e.2 v) else e)
  else
    m ++ [(k, v)]

/-- The lexical_by_file map of rank/mod.rs (maximum normalized lexical score
per file), built along the step-1 loop. -/
def buildLexByFile (max_score : ℚ) (pairs : List (Chunk × ℚ)) : List (String × ℚ) :=
  pairs.foldl (fun acc p => lexByFileUpsert acc p.1.path (normalizedScore max_score p.2)) []

/-- The lexical_by_file map produced by the step-1 loop of
rerank_chunks_by_task, as a function of its inputs. -/
def lexicalByFileOf (log : ℚ → ℚ) (chunks : List Chunk) (query : String) :
    List (String × ℚ) :=
  buildLexByFile (maxScore (score_query_against_chunks log chunks query))
    (chunks.zip (score_query_against_chunks log chunks query))

/-! ### Symbol definitions and the dependency graph (rank/mod.rs
symbol_definitions, dependency_graph, extract_import_references,
resolve_reference, candidate_paths, normalize_path) -/

/-- Model of Rust str::split_once with a character pattern. -/
def splitOnceChar (c : Char) : List Char → Option (List Char × List Char)
  | [] => none
  | x :: xs =>
    if x = c then some ([], xs)
    else (splitOnceChar c xs).map (fun p => (x :: p.1, p.2))

/-- Model of rank/mod.rs symbol_definitions (lines 106 to 118) as a lookup
function: the files containing a chunk with a def:, type: or impl: tag
whose lower-cased name is the key. -/
def symbol_definitions (chunks : List Chunk) (key : String) : List String :=
  ((chunks.filter (fun c =>
      c.tags.any (fun tag =>
        match splitOnceChar ':' tag.data with
        | some (kind, name) =>
          (String.mk kind = "def" || String.mk kind = "type" || String.mk kind = "impl")
            && !(String.mk name = "") && (toLowerStr (String.mk name) = key)
        | none => false))).map Chunk.path).dedup

/-- Model of rank/mod.rs extract_import_references (lines 152 to 194):
per line, the Python from/import modules, the Rust use/mod targets, and the
JS-style from and require module strings. -/
def extract_import_references (content : String) : List String :=
  (rustLines content).foldl
    (fun refs line =>
      let trimmed := trimStr line
      let refs :=
        match stripPreStr trimmed ("from ") with
        | some rest =>
          match (splitWs rest).head? with
          | some module => refs ++ [trimMatchesChar squote (trimMatchesChar dquote module)]
          | none => refs
        | none => refs
      let refs :=
        match stripPreStr trimmed ("import ") with
        | some rest =>
          refs ++ (rustSplit (fun c => c = ',') rest.data).foldl
            (fun acc module =>
              match (splitWs (String.mk module)).head? with
              | some m => acc ++ [trimMatchesChar squote (trimMatchesChar dquote m)]
              | none => acc) []
        | none => refs
      let refs :=
        match stripPreStr trimmed ("use ") with
        | some rest =>
          match (rustSplit (fun c => c = ';') rest.data).head? with
          | some module => refs ++ [trimStr (String.mk module)]
          | none => refs
        | none => refs
      let refs :=
        match stripPreStr trimmed ("mod ") with
        | some rest =>
          match (rustSplit (fun c => c = ';') rest.data).head? with
          | some module => refs ++ [trimStr (String.mk module)]
          | none => refs
        | none => refs
      let markers := [" from " ++ String.mk [squote], " from " ++ String.mk [dquote],
        "require(" ++ String.mk [squote], "require(" ++ String.mk [dquote]]
      markers.foldl
        (fun refs marker =>
          match findTail marker.data trimmed.data with
          | some tail =>
            let piece := ((rustSplit
              (fun c => c = squote || c = dquote || c = ')') tail).head?).getD []
            let module := trimStr (String.mk piece)
            if module = "" then refs else refs ++ [module]
          | none => refs)
        refs)
    []

/-- Model of rank/mod.rs candidate_paths (lines 247 to 261). -/
def candidate_paths (module : String) : List String :=
  [module, module ++ ".py", module ++ "/__init__.py", module ++ ".rs",
    module ++ "/mod.rs", module ++ ".ts", module ++ ".tsx", module ++ ".js",
    module ++ ".jsx", module ++ ".go"]

/-- Model of rank/mod.rs normalize_path: backslashes become slashes (the
PathBuf is modelled as its lossy string). -/
def normalize_path (path : String) : String := replaceChar bslash '/' path

/-- Parent of a slash-separated path (Path::parent().unwrap_or(empty)),
modelled on the repo-relative slash paths the pipeline uses. -/
def parentPath (s : String) : String :=
  let parts := rustSplit (fun c => c = '/') s.data
  if parts.length ≤ 1 then ""
  else String.mk (List.intercalate ['/'] parts.dropLast)

/-- PathBuf::join for the relative references the resolver builds. -/
def joinPath (base rel : String) : String :=
  if base = "" then rel else base ++ "/" ++ rel

/-- Model of rank/mod.rs resolve_reference (lines 196 to 245). The Rust
lower-cased HashMap from known files is modelled as an association list in
known-file order; its lookup takes the first match (on a case collision the
Rust map keeps an unspecified entry, and the claims do not depend on that
case). The BTreeSet result is the ascending duplicate-free list. -/
def resolve_reference (reference current_file : String) (known_files : List String) :
    List String :=
  let cleaned := replaceChar '.' '/'
    (replaceStr
      (trimStartMatches ("super::")
        (trimStartMatches ("self::")
          (trimStartMatches ("crate::") (trimStr reference))))
      ("::") ("/"))
  if cleaned = "" then []
  else
    let candidates := [cleaned] ++ candidate_paths cleaned
    let candidates :=
      if startsWithStr reference ("./") || startsWithStr reference ("../") then
        let rel := normalize_path (joinPath (parentPath current_file) reference)
        candidates ++ ([rel] ++ candidate_paths rel)
      else candidates
    let lower_known : List (String × String) := known_files.map (fun f => (toLowerStr f, f))
    sortedDedupStrings
      (candidates.foldl
        (fun out candidate =>
          let c := toLowerStr candidate
          let out :=
            match lower_known.find? (fun e => e.1 = c) with
            | some e => out ++ [e.2]
            | none => out
          out ++ (lower_known.foldl
            (fun acc e =>
              if endsWithStr e.1 ("/" ++ c) || endsWithStr e.1 ("/" ++ c ++ ".py")
                  || endsWithStr e.1 ("/" ++ c ++ ".rs") || endsWithStr e.1 ("/" ++ c ++ ".ts")
                  || endsWithStr e.1 ("/" ++ c ++ ".js") then
                acc ++ [e.2]
              else acc) []))
        [])

/-- Edge list of rank/mod.rs dependency_graph (lines 120 to 150): for each
chunk, both directions of an edge to every resolved import reference and to
every file defining a token the chunk mentions. -/
def graphEdges (chunks : List Chunk) (known_files : List String)
    (symbol_defs : String → List String) : List (String × String) :=
  chunks.flatMap
    (fun c =>
      ((extract_import_references c.content).flatMap
        (fun reference =>
          (resolve_reference reference c.path known_files).flatMap
            (fun target =>
              if target ≠ c.path then [(c.path, target), (target, c.path)] else [])))
      ++ ((tokenize c.content).flatMap
        (fun token =>
          (symbol_defs token).flatMap
            (fun target =>
              if target ≠ c.path then [(c.path, target), (target, c.path)] else []))))

/-- Model of rank/mod.rs dependency_graph as the neighbor function: the
BTreeSet of targets of the edges leaving a vertex. -/
def dependency_graph (chunks : List Chunk) (known_files : List String)
    (symbol_defs : String → List String) (v : String) : List String :=
  sortedDedupStrings
    ((graphEdges chunks known_files symbol_defs).filterMap
      (fun e => if e.1 = v then some e.2 else none))

/-! ### Dependency expansion (rank/mod.rs dependency_expansion_scores,
lines 63 to 104) -/

/-- HashMap entry().and_modify(max).or_insert on the expanded-score map,
modelled as a lookup function. -/
def scoreMapInsertMax (m : String → Option ℚ) (k : String) (v : ℚ) :
    String → Option ℚ :=
  fun x =>
    if x = k then
      some (match m k with | some old => max old v | none => v)
    else m x

/-- Comparator of the seed sort (rank/mod.rs lines 77 to 79): score
descending, then path ascending. -/
def seedLe (a b : String × ℚ) : Bool :=
  decide (((cmpQ b.2 a.2).then (cmpS a.1 b.1)) ≠ Ordering.gt)

/-- The up-to-five top-lexical seeds: the positive-score entries of
lexical_by_file, sorted by score descending then path ascending, first
five. -/
def seedsOf (lexical_by_file : List (String × ℚ)) : List (String × ℚ) :=
  ((lexical_by_file.filter (fun s => 0 < s.2)).mergeSort seedLe).take 5

/-- Model of rank/mod.rs dependency_expansion_scores: build the graph, pick
the seeds, and propagate each seed score to itself, its neighbors (times
0.6, capped at 1) and their neighbors (times 0.3, capped at 1), keeping
the maximum on repeated reach. -/
def dependency_expansion_scores (chunks : List Chunk)
    (lexical_by_file : List (String × ℚ)) : String → Option ℚ :=
  let known_files := (chunks.map Chunk.path).dedup
  if known_files = [] then fun _ => none
  else
    let symbol_defs := symbol_definitions chunks
    let graph := dependency_graph chunks known_files symbol_defs
    (seedsOf lexical_by_file).foldl
      (fun expanded sv =>
        let expanded := scoreMapInsertMax expanded sv.1 sv.2
        (graph sv.1).foldl
          (fun expanded neighbor =>
            let expanded := scoreMapInsertMax expanded neighbor (min (sv.2 * (3 / 5)) 1)
            (graph neighbor).foldl
              (fun expanded neighbor2 =>
                scoreMapInsertMax expanded neighbor2 (min (sv.2 * (3 / 10)) 1))
              expanded)
          expanded)
      (fun _ => none)

/-- Model of rank/mod.rs rerank_chunks_by_task (lines 14 to 61): the step-1
lexical blend, then the dependency-expansion boost; returns the reranked
chunks and the final per-file maximum priorities (the file_scores map the
Rust function returns, rebuilt after the boost). -/
def rerank_chunks_by_task (log : ℚ → ℚ) (chunks : List Chunk) (query : String)
    (relevance_weight : ℚ) : List Chunk × List (String × ℚ) :=
  let step1 := rerank_step1 log chunks query relevance_weight
  let lexical_by_file := lexicalByFileOf log chunks query
  let expansion := dependency_expansion_scores step1 lexical_by_file
  let boosted := step1.map
    (fun c =>
      match expansion c.path with
      | some expanded => { c with priority := round3 (c.priority * (4 / 5) + expanded * (1 / 5)) }
      | none => c)
  let file_scores := boosted.foldl (fun acc c => lexByFileUpsert acc c.path c.priority) []
  (boosted, file_scores)

/-- The relevance weight the export pipeline passes to
rerank_chunks_by_task (cli/export.rs line 355). -/
def exportTaskWeight : ℚ := 2 / 5

/-! ### Claim-side characterization of the dependency expansion -/

/-- Maximum-merge of two optional scores (how the expanded map combines a
present and a new value). -/
def combineMax : Option ℚ → Option ℚ → Option ℚ
  | none, b => b
  | some x, none => some x
  | some x, some y => some (max x y)

/-- Maximum of a score list, none when empty. -/
def listMax2 : List ℚ → Option ℚ
  | [] => none
  | v :: vs =>
    match listMax2 vs with
    | none => some v
    | some m => some (max v m)

/-- Sequential maximum-merge insertion of scored keys into a lookup map. -/
def applyAll (ps : List (String × ℚ)) (m : String → Option ℚ) : String → Option ℚ :=
  ps.foldl (fun m p => scoreMapInsertMax m p.1 p.2) m

/-- The contribution list of the expansion loop, in loop order: each seed
contributes its own score to itself, 0.6 of it (capped at 1) to each
depth-1 neighbor, and 0.3 of it (capped at 1) to each depth-2 neighbor. -/
def expandContribs (graph : String → List String) (seeds : List (String × ℚ)) :
    List (String × ℚ) :=
  seeds.flatMap (fun sv =>
    (sv.1, sv.2) :: (graph sv.1).flatMap (fun n =>
      (n, min (sv.2 * (3 / 5)) 1) :: (graph n).map (fun n2 => (n2, min (sv.2 * (3 / 10)) 1))))

/-- Claim-side contribution list: as expandContribs but with the plain
factors 0.6 and 0.3 of the claim (the caps never bind because seed scores
are normalized into [0, 1]). -/
def expandContribsSpec (graph : String → List String) (seeds : List (String × ℚ)) :
    List (String × ℚ) :=
  seeds.flatMap (fun sv =>
    (sv.1, sv.2) :: (graph sv.1).flatMap (fun n =>
      (n, sv.2 * (3 / 5)) :: (graph n).map (fun n2 => (n2, sv.2 * (3 / 10)))))

/-- Claim-side expansion map: a file's expansion score is the maximum of
all its contributions (none when it receives none). -/
def expansionSpec (graph : String → List String) (seeds : List (String × ℚ))
    (f : String) : Option ℚ :=
  listMax2 (((expandContribsSpec graph seeds).filter (fun e => e.1 = f)).map Prod.snd)

/-- Sort key of the seed sort: score reversed, then path. -/
def seedKey (sv : String × ℚ) : ℚᵒᵈ ×ₗ String := toLex (OrderDual.toDual sv.2, sv.1)

/-- Concrete chunk for the C4 witness. -/
def c4chunk : Chunk :=
  { id := "c1", path := "src/a.rs", language := "rust", start_line := 1,
    end_line := 2, content := "alpha beta", priority := 1 / 2, tags := [],
    token_estimate := 5 }

/-- Concrete chunk for the C9 witness. -/
def c9chunk : Chunk :=
  { id := "c1", path := "src/a.py", language := "python", start_line := 1,
    end_line := 3, content := "alpha beta", priority := 1 / 2, tags := [],
    token_estimate := 4 }

/-! ### Query pipeline (cli/query.rs) -/

/-- A search result row of cli/query.rs (struct SearchRow); the f64 score
is modelled as an exact rational. -/
structure SearchRow where
  chunk_id : String
  path : String
  start_line : ℕ
  end_line : ℕ
  content : String
  score : ℚ
deriving DecidableEq

/-- A full-text-search match: the chunks columns joined to the chunk_fts
bm25 rank. The MATCH answer of the external SQLite engine is a parameter
of the model, listed in the rank order the ORDER BY clause produces; the
LIMIT is applied by the model itself. -/
structure FtsHit where
  chunk_id : String
  path : String
  start_line : ℕ
  end_line : ℕ
  content : String
  rank : ℚ
deriving DecidableEq

/-- The chunks-table columns the query fallback fetch selects. -/
structure ChunkTblRow where
  id : String
  file_path : String
  start_line : ℕ
  end_line : ℕ
  content : String
deriving DecidableEq

/-- cli/query.rs bm25_to_score: 1 / (1 + |rank|), clamped to [0, 1]. -/
def bm25_to_score (rank : ℚ) : ℚ := clamp01 (1 / (1 + |rank|))

/-- The SearchRow built from a full-text-search hit (query.rs run, the FTS
statement block). -/
def rowOfHit (h : FtsHit) : SearchRow :=
  { chunk_id := h.chunk_id, path := h.path, start_line := h.start_line,
    end_line := h.end_line, content := h.content, score := bm25_to_score h.rank }

/-- The scored HashMap keyed by chunk_id, modelled as a row list with
in-place overwrite on an existing key (the key order is immaterial: the
rows are sorted before display). -/
def scoredInsert (rows : List SearchRow) (r : SearchRow) : List SearchRow :=
  if rows.any (fun x => x.chunk_id = r.chunk_id) then
    rows.map (fun x => if x.chunk_id = r.chunk_id then r else x)
  else rows ++ [r]

/-- The distinct chunk ids of the symbols table (rows (symbol, chunk_id))
matching any query token: the symbol_hits HashSet of query.rs run,
modelled as a sorted deduplicated list (the per-id updates of the loop
below touch distinct keys and commute, so the set iteration order is
immaterial). -/
def symHits (symbols : List (String × String)) (tokens : List String) : List String :=
  sortedDedupStrings (tokens.flatMap (fun t => (symbols.filter (fun s => s.1 = t)).map Prod.snd))

/-- The +0.25 boost capped at 1.0 of query.rs run (symbol-hit branch for a
chunk already in the scored map). -/
def boostRow (r : SearchRow) : SearchRow := { r with score := min (r.score + 1 / 4) 1 }

/-- The row inserted for a symbol hit absent from the scored map: the
chunks-table row with that id, at flat score 0.5 (query.rs run, fallback
fetch). -/
def mkFallback (c : ChunkTblRow) : SearchRow :=
  { chunk_id := c.id, path := c.file_path, start_line := c.start_line,
    end_line := c.end_line, content := c.content, score := 1 / 2 }

/-- One iteration of the symbol-hit loop of query.rs run: an id already in
the scored map gets +0.25 capped at 1.0; otherwise the chunk with that id
is fetched from the chunks table and inserted at score 0.5 (nothing
happens when the id is unknown). -/
def symbolStep (chunksTbl : List ChunkTblRow) (rows : List SearchRow) (cid : String) :
    List SearchRow :=
  if rows.any (fun x => x.chunk_id = cid) then
    rows.map (fun x => if x.chunk_id = cid then boostRow x else x)
  else
    match chunksTbl.find? (fun c => c.id = cid) with
    | some c => rows ++ [mkFallback c]
    | none => rows

/-- Comparator of the final result sort of query.rs run: score descending,
then path ascending, then start line ascending. -/
def rowLe (a b : SearchRow) : Bool :=
  decide (((cmpQ b.score a.score).then ((cmpS a.path b.path).then
    (cmpN a.start_line b.start_line))) ≠ Ordering.gt)

/-- Model of cli/query.rs run after the database is open and the schema
check passed, with the LSP backend off: tokenize the task (error when no
token survives), score the full-text matches up to 5 * max(limit, 1) into
the scored map, apply the symbol-hit pass, then sort by score descending /
path / start line and keep the first max(limit, 1) rows. -/
def query_search (ftsRows : List FtsHit) (symbols : List (String × String))
    (chunksTbl : List ChunkTblRow) (task : String) (lim : ℕ) :
    Except String (List SearchRow) :=
  let tokens := tokenize task
  if tokens = [] then Except.error "Task query is empty after tokenization"
  else
    let search_limit := max lim 1 * 5
    let scored := ((ftsRows.take search_limit).map rowOfHit).foldl scoredInsert []
    let scored2 := (symHits symbols tokens).foldl (symbolStep chunksTbl) scored
    Except.ok ((scored2.mergeSort rowLe).take (max lim 1))

/-- Claim-side candidate list: the scored full-text matches the query run
considers. -/
def ftsCandidates (ftsRows : List FtsHit) (lim : ℕ) : List SearchRow :=
  (ftsRows.take (max lim 1 * 5)).map rowOfHit

/-- Claim-side pool the final sort runs over: every candidate, boosted
exactly when its id is a symbol hit, followed by the symbol hits outside
the candidate set that exist in the chunks table, at flat score 0.5. -/
def queryPool (ftsRows : List FtsHit) (symbols : List (String × String))
    (chunksTbl : List ChunkTblRow) (task : String) (lim : ℕ) : List SearchRow :=
  (ftsCandidates ftsRows lim).map
    (fun r => if r.chunk_id ∈ symHits symbols (tokenize task) then boostRow r else r) ++
  ((symHits symbols (tokenize task)).filter
      (fun cid => !((ftsCandidates ftsRows lim).any (fun r => r.chunk_id = cid)))).filterMap
    (fun cid => (chunksTbl.find? (fun c => c.id = cid)).map mkFallback)

/-- Sort key of the result sort: score reversed, then path, then start
line. -/
def rowKey (r : SearchRow) : ℚᵒᵈ ×ₗ (String ×ₗ ℕ) :=
  toLex (OrderDual.toDual r.score, toLex (r.path, r.start_line))

/-- Concrete full-text hit for the C7 input. -/
def c7hit : FtsHit :=
  { chunk_id := "c1", path := "src/a.rs", start_line := 1, end_line := 4,
    content := "alpha beta", rank := 0 }

/-- The scored row the C7 input produces. -/
def c7row : SearchRow := rowOfHit c7hit

/-! ### Index writing (cli/index.rs write_index)

The SQLite index is modelled as lists of table rows; path is the files
primary key, id the chunks primary key. The chunk builder of the reindex
branch (crate::chunk chunk_content and coalesce_small_chunks_with_max,
whose sources are outside cli/) is abstracted as a rebuild parameter, the
serde_json tag serialization as a tagsJson parameter and the indexed_at
timestamp as a string parameter; none of them matters to the reuse branch.
The metadata table is cleared and rewritten every run and is not part of
the claim, so it is left out of the state. -/

/-- A row of the files table. -/
structure FileRow where
  path : String
  language : String
  extension : String
  size_bytes : ℕ
  priority : ℚ
  token_estimate : ℕ
  file_hash : String
  indexed_at : String
deriving DecidableEq

/-- A row of the chunks table. -/
structure ChunkRow where
  id : String
  file_path : String
  start_line : ℕ
  end_line : ℕ
  language : String
  priority : ℚ
  token_estimate : ℕ
  tags_json : String
  content : String
deriving DecidableEq

/-- A row of the symbols table. -/
structure SymbolRow where
  symbol : String
  kind : String
  file_path : String
  chunk_id : String
deriving DecidableEq

/-- A row of the chunk_fts virtual table. -/
structure FtsRow where
  chunk_id : String
  path : String
  content : String
deriving DecidableEq

/-- The index database state. -/
structure IndexDb where
  files : List FileRow
  chunks : List ChunkRow
  symbols : List SymbolRow
  fts : List FtsRow
deriving DecidableEq

/-- A prepared input file of the indexing run: scanned file info, its
content and the SHA-256 hash of the content (the hash itself is opaque to
write_index, which only compares it for equality). -/
structure PreparedFile where
  file : FileInfo
  content : String
  hash : String
deriving DecidableEq

/-- The summary write_index reports. -/
structure IndexSummary where
  files_indexed : ℕ
  chunks_indexed : ℕ
  files_reindexed : ℕ
  files_reused : ℕ
  files_removed : ℕ
deriving DecidableEq

/-- The existing_hashes HashMap snapshot, as an association list over the
files rows (path is the primary key). -/
def lookupHash (l : List (String × String)) (p : String) : Option String :=
  (l.find? (fun e => e.1 = p)).map Prod.snd

/-- DELETE FROM chunk_fts WHERE path = p (chunk_fts has no foreign keys,
so it is only emptied by this explicit statement). -/
def dbDeleteFtsByPath (db : IndexDb) (p : String) : IndexDb :=
  { db with fts := db.fts.filter (fun r => !(r.path = p)) }

/-- DELETE FROM files WHERE path = p with the ON DELETE CASCADE clauses:
the chunks rows of that file go, and the symbols rows referencing the file
or one of its deleted chunks go. -/
def dbDeleteFileCascade (db : IndexDb) (p : String) : IndexDb :=
  { db with
    files := db.files.filter (fun f => !(f.path = p)),
    chunks := db.chunks.filter (fun c => !(c.file_path = p)),
    symbols := db.symbols.filter (fun s =>
      !(s.file_path = p) &&
        !((db.chunks.filter (fun c => c.file_path = p)).any (fun c => c.id = s.chunk_id))) }

/-- INSERT OR IGNORE INTO symbols under the (symbol, kind, chunk_id)
primary key. -/
def insertSymbolRow (syms : List SymbolRow) (r : SymbolRow) : List SymbolRow :=
  if syms.any (fun s => s.symbol = r.symbol ∧ s.kind = r.kind ∧ s.chunk_id = r.chunk_id) then
    syms
  else syms ++ [r]

/-- The symbols insertion of cli/index.rs insert_chunk for one tag: a
def:/type:/impl: tag with a non-blank name adds the lower-cased symbol. -/
def symbolRowsOfTag (c : Chunk) (syms : List SymbolRow) (tag : String) : List SymbolRow :=
  match splitOnceChar ':' tag.data with
  | some (kind, name) =>
    if (String.mk kind = "def" ∨ String.mk kind = "type" ∨ String.mk kind = "impl") ∧
        trimStr (String.mk name) ≠ "" then
      insertSymbolRow syms
        (SymbolRow.mk (toLowerStr (String.mk name)) (String.mk kind) c.path c.id)
    else syms
  | none => syms

/-- The chunks row insert_chunk writes for a chunk. -/
def chunkRowOf (tagsJson : List String → String) (c : Chunk) : ChunkRow :=
  { id := c.id, file_path := c.path, start_line := c.start_line,
    end_line := c.end_line, language := c.language, priority := c.priority,
    token_estimate := c.token_estimate, tags_json := tagsJson c.tags, content := c.content }

/-- The chunk_fts row insert_chunk writes for a chunk. -/
def ftsRowOf (c : Chunk) : FtsRow :=
  { chunk_id := c.id, path := c.path, content := c.content }

/-- cli/index.rs insert_chunk: append the chunks row and the chunk_fts row
and run the symbols loop. -/
def insertChunkRows (tagsJson : List String → String) (db : IndexDb) (c : Chunk) : IndexDb :=
  { db with
    chunks := db.chunks ++ [chunkRowOf tagsJson c],
    fts := db.fts ++ [ftsRowOf c],
    symbols := c.tags.foldl (symbolRowsOfTag c) db.symbols }

/-- The UPDATE of the hash-match branch: language, extension, size_bytes,
priority and indexed_at of the row with the file's path; every other
column and row is untouched. -/
def updateFileMeta (pf : PreparedFile) (t : String) (f : FileRow) : FileRow :=
  if f.path = pf.file.relative_path then
    FileRow.mk f.path pf.file.language pf.file.extension pf.file.size_bytes pf.file.priority
      f.token_estimate f.file_hash t
  else f

/-- One iteration of the prepared-file loop of write_index: a stored hash
equal to the prepared hash updates only the files-row metadata and counts
the file reused; otherwise the file is deleted (fts row set and files
cascade), re-chunked through rebuild and fully re-inserted, and counted
reindexed. The accumulator is (database, files_reindexed, files_reused). -/
def writeFileStep (rebuild : PreparedFile → List Chunk) (tagsJson : List String → String)
    (existing : List (String × String)) (t : String)
    (acc : IndexDb × ℕ × ℕ) (pf : PreparedFile) : IndexDb × ℕ × ℕ :=
  let p := pf.file.relative_path
  if lookupHash existing p = some pf.hash then
    ({ acc.1 with files := acc.1.files.map (updateFileMeta pf t) }, acc.2.1, acc.2.2 + 1)
  else
    let db1 := dbDeleteFileCascade (dbDeleteFtsByPath acc.1 p) p
    let cs := rebuild pf
    let file_tokens := (cs.map Chunk.token_estimate).sum
    let newRow := FileRow.mk p pf.file.language pf.file.extension pf.file.size_bytes
      pf.file.priority file_tokens pf.hash t
    let db2 := { db1 with files := db1.files ++ [newRow] }
    (cs.foldl (insertChunkRows tagsJson) db2, acc.2.1 + 1, acc.2.2)

/-- Model of cli/index.rs write_index on an open database with the schema
in place: snapshot the stored hashes, delete the stale files (stored paths
no longer selected; the HashSet difference is modelled in stored order —
the per-path deletions touch distinct keys and commute), run the
prepared-file loop, and report the summary (files_indexed and
chunks_indexed are the final COUNT(*) of the two tables). -/
def write_index (rebuild : PreparedFile → List Chunk) (tagsJson : List String → String)
    (db0 : IndexDb) (files : List FileInfo) (prepared : List PreparedFile)
    (indexed_at : String) : IndexSummary × IndexDb :=
  let existing_hashes := db0.files.map (fun f => (f.path, f.file_hash))
  let selected_paths := files.map (fun f => f.relative_path)
  let stale_paths := (db0.files.map FileRow.path).filter (fun p => !(p ∈ selected_paths))
  let db1 := stale_paths.foldl (fun db p => dbDeleteFileCascade (dbDeleteFtsByPath db p) p) db0
  let out := prepared.foldl (writeFileStep rebuild tagsJson existing_hashes indexed_at)
    (db1, 0, 0)
  ({ files_indexed := out.1.files.length, chunks_indexed := out.1.chunks.length,
     files_reindexed := out.2.1, files_reused := out.2.2,
     files_removed := stale_paths.length }, out.1)

/-- Claim-side closed form of the all-reused loop: every iteration maps
the metadata update over the files rows. -/
def metaFold (t : String) (prepared : List PreparedFile) (fs : List FileRow) : List FileRow :=
  prepared.foldl (fun fs pf => fs.map (updateFileMeta pf t)) fs

/-- Concrete stored files row for the C3 witness. -/
def c3filerow : FileRow :=
  { path := "src/a.rs", language := "rust", extension := ".rs", size_bytes := 10,
    priority := 1 / 2, token_estimate := 7, file_hash := "h1", indexed_at := "t0" }

/-- Concrete stored chunks row for the C3 witness. -/
def c3chunkrow : ChunkRow :=
  { id := "c1", file_path := "src/a.rs", start_line := 1, end_line := 4,
    language := "rust", priority := 1 / 2, token_estimate := 7,
    tags_json := "[]", content := "alpha beta" }

/-- Concrete index database for the C3 witness. -/
def c3db : IndexDb :=
  { files := [c3filerow], chunks := [c3chunkrow], symbols := [],
    fts := [{ chunk_id := "c1", path := "src/a.rs", content := "alpha beta" }] }

/-- Concrete scanned file for the C3 witness. -/
def c3fileinfo : FileInfo :=
  { path := "/repo/src/a.rs", relative_path := "src/a.rs", size_bytes := 11,
    extension := ".rs", language := "rust", id := "f1", priority := 3 / 5,
    token_estimate := 7 }

/-- Concrete prepared file for the C3 witness, hash-matching the stored
row. -/
def c3prepared : PreparedFile :=
  { file := c3fileinfo, content := "alpha beta", hash := "h1" }

/-! ## Theorems -/

/-! ### Helper lemmas for the configuration merge -/

theorem optUpd_some {α : Type} (v : α) (f : α → Config) (c : Config) :
    optUpd (some v) f c = f v := rfl

theorem optUpd_none {α : Type} (f : α → Config) (c : Config) :
    optUpd none f c = c := rfl

theorem upd_ref__path (cli : CliOverrides) (c : Config) :
    (upd_ref_ cli c).path = c.path := by
  cases h : cli.ref_ <;> simp [upd_ref_, optUpd, h]

theorem upd_ref__repo (cli : CliOverrides) (c : Config) :
    (upd_ref_ cli c).repo_url = c.repo_url := by
  cases h : cli.ref_ <;> simp [upd_ref_, optUpd, h]

theorem upd_include_extensions_path (cli : CliOverrides) (c : Config) :
    (upd_include_extensions cli c).path = c.path := by
  cases h : cli.include_extensions <;> simp [upd_include_extensions, optUpd, h]

theorem upd_include_extensions_repo (cli : CliOverrides) (c : Config) :
    (upd_include_extensions cli c).repo_url = c.repo_url := by
  cases h : cli.include_extensions <;> simp [upd_include_extensions, optUpd, h]

theorem upd_exclude_globs_path (cli : CliOverrides) (c : Config) :
    (upd_exclude_globs cli c).path = c.path := by
  cases h : cli.exclude_globs <;> simp [upd_exclude_globs, optUpd, h]

theorem upd_exclude_globs_repo (cli : CliOverrides) (c : Config) :
    (upd_exclude_globs cli c).repo_url = c.repo_url := by
  cases h : cli.exclude_globs <;> simp [upd_exclude_globs, optUpd, h]

theorem upd_max_file_bytes_path (cli : CliOverrides) (c : Config) :
    (upd_max_file_bytes cli c).path = c.path := by
  cases h : cli.max_file_bytes <;> simp [upd_max_file_bytes, optUpd, h]

theorem upd_max_file_bytes_repo (cli : CliOverrides) (c : Config) :
    (upd_max_file_bytes cli c).repo_url = c.repo_url := by
  cases h : cli.max_file_bytes <;> simp [upd_max_file_bytes, optUpd, h]

theorem upd_max_total_bytes_path (cli : CliOverrides) (c : Config) :
    (upd_max_total_bytes cli c).path = c.path := by
  cases h : cli.max_total_bytes <;> simp [upd_max_total_bytes, optUpd, h]

theorem upd_max_total_bytes_repo (cli : CliOverrides) (c : Config) :
    (upd_max_total_bytes cli c).repo_url = c.repo_url := by
  cases h : cli.max_total_bytes <;> simp [upd_max_total_bytes, optUpd, h]

theorem upd_respect_gitignore_path (cli : CliOverrides) (c : Config) :
    (upd_respect_gitignore cli c).path = c.path := by
  cases h : cli.respect_gitignore <;> simp [upd_respect_gitignore, optUpd, h]

theorem upd_respect_gitignore_repo (cli : CliOverrides) (c : Config) :
    (upd_respect_gitignore cli c).repo_url = c.repo_url := by
  cases h : cli.respect_gitignore <;> simp [upd_respect_gitignore, optUpd, h]

theorem upd_follow_symlinks_path (cli : CliOverrides) (c : Config) :
    (upd_follow_symlinks cli c).path = c.path := by
  cases h : cli.follow_symlinks <;> simp [upd_follow_symlinks, optUpd, h]

theorem upd_follow_symlinks_repo (cli : CliOverrides) (c : Config) :
    (upd_follow_symlinks cli c).repo_url = c.repo_url := by
  cases h : cli.follow_symlinks <;> simp [upd_follow_symlinks, optUpd, h]

theorem upd_skip_minified_path (cli : CliOverrides) (c : Config) :
    (upd_skip_minified cli c).path = c.path := by
  cases h : cli.skip_minified <;> simp [upd_skip_minified, optUpd, h]

theorem upd_skip_minified_repo (cli : CliOverrides) (c : Config) :
    (upd_skip_minified cli c).repo_url = c.repo_url := by
  cases h : cli.skip_minified <;> simp [upd_skip_minified, optUpd, h]

theorem upd_max_tokens_path (cli : CliOverrides) (c : Config) :
    (upd_max_tokens cli c).path = c.path := by
  cases h : cli.max_tokens <;> simp [upd_max_tokens, optUpd, h]

theorem upd_max_tokens_repo (cli : CliOverrides) (c : Config) :
    (upd_max_tokens cli c).repo_url = c.repo_url := by
  cases h : cli.max_tokens <;> simp [upd_max_tokens, optUpd, h]

theorem upd_task_query_path (cli : CliOverrides) (c : Config) :
    (upd_task_query cli c).path = c.path := by
  cases h : cli.task_query <;> simp [upd_task_query, optUpd, h]

theorem upd_task_query_repo (cli : CliOverrides) (c : Config) :
    (upd_task_query cli c).repo_url = c.repo_url := by
  cases h : cli.task_query <;> simp [upd_task_query, optUpd, h]

theorem upd_chunk_tokens_path (cli : CliOverrides) (c : Config) :
    (upd_chunk_tokens cli c).path = c.path := by
  cases h : cli.chunk_tokens <;> simp [upd_chunk_tokens, optUpd, h]

theorem upd_chunk_tokens_repo (cli : CliOverrides) (c : Config) :
    (upd_chunk_tokens cli c).repo_url = c.repo_url := by
  cases h : cli.chunk_tokens <;> simp [upd_chunk_tokens, optUpd, h]

theorem upd_chunk_overlap_path (cli : CliOverrides) (c : Config) :
    (upd_chunk_overlap cli c).path = c.path := by
  cases h : cli.chunk_overlap <;> simp [upd_chunk_overlap, optUpd, h]

theorem upd_chunk_overlap_repo (cli : CliOverrides) (c : Config) :
    (upd_chunk_overlap cli c).repo_url = c.repo_url := by
  cases h : cli.chunk_overlap <;> simp [upd_chunk_overlap, optUpd, h]

theorem upd_min_chunk_tokens_path (cli : CliOverrides) (c : Config) :
    (upd_min_chunk_tokens cli c).path = c.path := by
  cases h : cli.min_chunk_tokens <;> simp [upd_min_chunk_tokens, optUpd, h]

theorem upd_min_chunk_tokens_repo (cli : CliOverrides) (c : Config) :
    (upd_min_chunk_tokens cli c).repo_url = c.repo_url := by
  cases h : cli.min_chunk_tokens <;> simp [upd_min_chunk_tokens, optUpd, h]

theorem upd_mode_path (cli : CliOverrides) (c : Config) :
    (upd_mode cli c).path = c.path := by
  cases h : cli.mode <;> simp [upd_mode, optUpd, h]

theorem upd_mode_repo (cli : CliOverrides) (c : Config) :
    (upd_mode cli c).repo_url = c.repo_url := by
  cases h : cli.mode <;> simp [upd_mode, optUpd, h]

theorem upd_output_dir_path (cli : CliOverrides) (c : Config) :
    (upd_output_dir cli c).path = c.path := by
  cases h : cli.output_dir <;> simp [upd_output_dir, optUpd, h]

theorem upd_output_dir_repo (cli : CliOverrides) (c : Config) :
    (upd_output_dir cli c).repo_url = c.repo_url := by
  cases h : cli.output_dir <;> simp [upd_output_dir, optUpd, h]

theorem upd_tree_depth_path (cli : CliOverrides) (c : Config) :
    (upd_tree_depth cli c).path = c.path := by
  cases h : cli.tree_depth <;> simp [upd_tree_depth, optUpd, h]

theorem upd_tree_depth_repo (cli : CliOverrides) (c : Config) :
    (upd_tree_depth cli c).repo_url = c.repo_url := by
  cases h : cli.tree_depth <;> simp [upd_tree_depth, optUpd, h]

theorem upd_redact_secrets_path (cli : CliOverrides) (c : Config) :
    (upd_redact_secrets cli c).path = c.path := by
  cases h : cli.redact_secrets <;> simp [upd_redact_secrets, optUpd, h]

theorem upd_redact_secrets_repo (cli : CliOverrides) (c : Config) :
    (upd_redact_secrets cli c).repo_url = c.repo_url := by
  cases h : cli.redact_secrets <;> simp [upd_redact_secrets, optUpd, h]

theorem upd_redaction_mode_path (cli : CliOverrides) (c : Config) :
    (upd_redaction_mode cli c).path = c.path := by
  cases h : cli.redaction_mode <;> simp [upd_redaction_mode, optUpd, h]

theorem upd_redaction_mode_repo (cli : CliOverrides) (c : Config) :
    (upd_redaction_mode cli c).repo_url = c.repo_url := by
  cases h : cli.redaction_mode <;> simp [upd_redaction_mode, optUpd, h]

theorem optUpd_repo_eq {α : Type} (o : Option α) (f : α → Config) (c : Config)
    (h : ∀ v, (f v).repo_url = c.repo_url) : (optUpd o f c).repo_url = c.repo_url := by
  cases o <;> simp [optUpd, h]

/-- C10. merge_cli_with_config enforces mutual exclusion of the input
sources: a CLI path override (with no repo_url override) sets path and
forces repo_url to none regardless of the config file values; a CLI
repo_url override sets repo_url and forces path to none, and since it is
applied after the path override, when both are supplied the merged
configuration retains only repo_url. -/
theorem C10_merge_cli_input_exclusion (base_config : Config) (cli : CliOverrides) :
    (∀ p, cli.path = some p → cli.repo_url = none →
      (merge_cli_with_config base_config cli).path = some p ∧
      (merge_cli_with_config base_config cli).repo_url = none) ∧
    (∀ u, cli.repo_url = some u →
      (merge_cli_with_config base_config cli).repo_url = some u ∧
      (merge_cli_with_config base_config cli).path = none) := by
  constructor
  · intro p hp hu
    constructor
    · simp [merge_cli_with_config, upd_ref__path, upd_include_extensions_path, upd_exclude_globs_path, upd_max_file_bytes_path, upd_max_total_bytes_path, upd_respect_gitignore_path, upd_follow_symlinks_path, upd_skip_minified_path, upd_max_tokens_path, upd_task_query_path, upd_chunk_tokens_path, upd_chunk_overlap_path, upd_min_chunk_tokens_path, upd_mode_path, upd_output_dir_path, upd_tree_depth_path, upd_redact_secrets_path, upd_redaction_mode_path, upd_repo_url, upd_path, hp, hu, optUpd]
    · simp [merge_cli_with_config, upd_ref__repo, upd_include_extensions_repo, upd_exclude_globs_repo, upd_max_file_bytes_repo, upd_max_total_bytes_repo, upd_respect_gitignore_repo, upd_follow_symlinks_repo, upd_skip_minified_repo, upd_max_tokens_repo, upd_task_query_repo, upd_chunk_tokens_repo, upd_chunk_overlap_repo, upd_min_chunk_tokens_repo, upd_mode_repo, upd_output_dir_repo, upd_tree_depth_repo, upd_redact_secrets_repo, upd_redaction_mode_repo, upd_repo_url, upd_path, hp, hu, optUpd]
  · intro u hu
    constructor
    · simp [merge_cli_with_config, upd_ref__repo, upd_include_extensions_repo, upd_exclude_globs_repo, upd_max_file_bytes_repo, upd_max_total_bytes_repo, upd_respect_gitignore_repo, upd_follow_symlinks_repo, upd_skip_minified_repo, upd_max_tokens_repo, upd_task_query_repo, upd_chunk_tokens_repo, upd_chunk_overlap_repo, upd_min_chunk_tokens_repo, upd_mode_repo, upd_output_dir_repo, upd_tree_depth_repo, upd_redact_secrets_repo, upd_redaction_mode_repo, upd_repo_url, hu, optUpd]
    · simp [merge_cli_with_config, upd_ref__path, upd_include_extensions_path, upd_exclude_globs_path, upd_max_file_bytes_path, upd_max_total_bytes_path, upd_respect_gitignore_path, upd_follow_symlinks_path, upd_skip_minified_path, upd_max_tokens_path, upd_task_query_path, upd_chunk_tokens_path, upd_chunk_overlap_path, upd_min_chunk_tokens_path, upd_mode_path, upd_output_dir_path, upd_tree_depth_path, upd_redact_secrets_path, upd_redaction_mode_path, upd_repo_url, hu, optUpd]

/-! ### C8: index database discovery -/

/-- C8. The export pipeline probes only root/.repo-context/index.sqlite.
On a filesystem whose only index database is the one the index subcommand
writes at its own default path root/.repo-to-prompt/index.sqlite,
find_index_db returns none, so the export neither locates nor uses that
index; it does locate an index at root/.repo-context/index.sqlite. -/
theorem C8_find_index_db_ignores_index_default :
    find_index_db (fun p => p == ("repo/" ++ indexDefaultDb)) "repo" = none ∧
    find_index_db (fun p => p == "repo/.repo-context/index.sqlite") "repo" =
      some "repo/.repo-context/index.sqlite" := by
  decide

/-! ### C2: byte budget -/

/-- Sum of the size_bytes fields of a file list. -/
def sumSizes (l : List FileInfo) : ℕ := (l.map FileInfo.size_bytes).sum

theorem sumSizes_nil : sumSizes [] = 0 := rfl

theorem sumSizes_cons (f : FileInfo) (l : List FileInfo) :
    sumSizes (f :: l) = f.size_bytes + sumSizes l := by
  simp [sumSizes]

theorem byteBudgetLoop_spec (limit : ℕ) (l : List FileInfo) (total : ℕ) :
    ∃ k, k ≤ l.length ∧
      (byteBudgetLoop limit l total).1 = l.take k ∧
      (∀ i, i < k → total + sumSizes (l.take i) < limit) ∧
      (k < l.length → limit ≤ total + sumSizes (l.take k)) ∧
      (byteBudgetLoop limit l total).2.1 = (l.drop k).map bytesLimitRecord ∧
      (byteBudgetLoop limit l total).2.2 = total + sumSizes (l.take k) := by
  induction l generalizing total with
  | nil =>
    refine ⟨0, by simp, ?_, ?_, ?_, ?_, ?_⟩ <;> simp [byteBudgetLoop, sumSizes]
  | cons f rest ih =>
    by_cases h : limit ≤ total
    · refine ⟨0, by simp, ?_, ?_, ?_, ?_, ?_⟩ <;>
        simp [byteBudgetLoop, h, sumSizes]
    · push_neg at h
      obtain ⟨k, hk, hsel, hlt, hge, hdrop, htot⟩ := ih (total + f.size_bytes)
      refine ⟨k + 1, by simpa using Nat.succ_le_succ hk, ?_, ?_, ?_, ?_, ?_⟩
      · simpa [byteBudgetLoop, Nat.not_le.mpr h] using hsel
      · intro i hi
        match i with
        | 0 => simpa [sumSizes]
        | j + 1 =>
          have hj : j < k := by omega
          have := hlt j hj
          simp only [List.take_succ_cons, sumSizes_cons]
          omega
      · intro hlen
        have hklen : k < rest.length := by simpa using Nat.lt_of_succ_lt_succ hlen
        have := hge hklen
        simp only [List.take_succ_cons, sumSizes_cons]
        omega
      · simpa [byteBudgetLoop, Nat.not_le.mpr h] using hdrop
      · have := htot
        simp only [byteBudgetLoop, if_neg (Nat.not_le.mpr h), List.take_succ_cons,
          sumSizes_cons]
        omega

/-- C2. apply_byte_budget walks the ranked files in order accumulating
size_bytes: there is a cut point k such that the first k files are accepted
(each was considered while the running total of previously accepted bytes
was still below the limit, even if accepting it overshoots), and at the
first file considered with total at or above the limit that file and every
remaining file are dropped with reason bytes_limit, each incrementing
files_dropped_budget; total_bytes_included is the byte sum of the accepted
files. -/
theorem C2_apply_byte_budget_break_semantics (ranked_files : List FileInfo)
    (limit : ℕ) (stats : ScanStats) :
    ∃ k, k ≤ ranked_files.length ∧
      (apply_byte_budget ranked_files (some limit) stats).1 = ranked_files.take k ∧
      (∀ i, i < k → sumSizes (ranked_files.take i) < limit) ∧
      (k < ranked_files.length → limit ≤ sumSizes (ranked_files.take k)) ∧
      (apply_byte_budget ranked_files (some limit) stats).2.dropped_files =
        stats.dropped_files ++ (ranked_files.drop k).map bytesLimitRecord ∧
      (apply_byte_budget ranked_files (some limit) stats).2.files_dropped_budget =
        stats.files_dropped_budget + (ranked_files.length - k) ∧
      (apply_byte_budget ranked_files (some limit) stats).2.total_bytes_included =
        sumSizes (ranked_files.take k) := by
  obtain ⟨k, hk, hsel, hlt, hge, hdrop, htot⟩ := byteBudgetLoop_spec limit ranked_files 0
  refine ⟨k, hk, ?_, ?_, ?_, ?_, ?_, ?_⟩
  · simpa [apply_byte_budget] using hsel
  · intro i hi
    simpa using hlt i hi
  · intro hlen
    simpa using hge hlen
  · simp [apply_byte_budget, hdrop]
  · simp [apply_byte_budget, hdrop, List.length_drop]
  · simpa [apply_byte_budget] using htot

/-! ### C1: token budget -/

theorem normalStep_foldl_spec (budget : ℕ) (files : List ExportFile)
    (cs₀ : List Chunk) (dr₀ : List DroppedFile) (t₀ : ℕ) :
    files.foldl (normalStep (some budget)) (cs₀, dr₀, t₀) =
      (cs₀ ++ (normalSelect budget files t₀).1,
        dr₀ ++ (normalSelect budget files t₀).2.1,
        (normalSelect budget files t₀).2.2) := by
  induction files generalizing cs₀ dr₀ t₀ with
  | nil => simp [normalSelect]
  | cons f rest ih =>
    cases hcf : f.chunks with
    | none =>
      simp only [List.foldl_cons, normalStep, hcf, normalSelect]
      exact ih cs₀ dr₀ t₀
    | some cs =>
      by_cases h : budget < t₀ + fileChunkTokens cs
      · simp only [List.foldl_cons, normalStep, hcf, normalSelect, if_pos h]
        rw [ih]
        simp
      · simp only [List.foldl_cons, normalStep, hcf, normalSelect, if_neg h]
        rw [ih]
        simp

/-- C1. With a token budget of m, the token-budget stage fails exactly when
the always-include token sum A exceeds m and allow_over_budget is not set,
and then with the over-budget error message; the remaining budget for
normal files is the saturating difference m - A, which equals
max(0, m - A) over the integers; when the stage proceeds, the output is the
always-include chunks followed by the normal chunks accepted by the
running-total rule of normalSelect: a normal file whose chunk-token sum
would push the accumulated normal tokens over the remaining budget is
dropped, recorded via tokenBudgetRecord (reason token_budget, path,
priority rounded to three decimals, tokens, chunk count), and the already
accepted chunks are unaffected. -/
theorem C1_token_budget_enforcement (m : ℕ) (allow_over_budget : Bool)
    (isAlwaysInclude : String → Bool) (selected_files : List ExportFile) :
    (∀ e, run_token_budget (some m) allow_over_budget isAlwaysInclude selected_files
          = Except.error e ↔
        (m < (alwaysPass (alwaysFilesOf isAlwaysInclude selected_files)).2 ∧
          allow_over_budget = false ∧
          e = budgetErrMsg (alwaysPass (alwaysFilesOf isAlwaysInclude selected_files)).2 m)) ∧
    (remainingBudget (some m) (alwaysPass (alwaysFilesOf isAlwaysInclude selected_files)).2
        = some (m - (alwaysPass (alwaysFilesOf isAlwaysInclude selected_files)).2) ∧
      ((m - (alwaysPass (alwaysFilesOf isAlwaysInclude selected_files)).2 : ℕ) : ℤ)
        = max 0 ((m : ℤ) - ((alwaysPass (alwaysFilesOf isAlwaysInclude selected_files)).2 : ℤ))) ∧
    (¬ (m < (alwaysPass (alwaysFilesOf isAlwaysInclude selected_files)).2 ∧
          allow_over_budget = false) →
      run_token_budget (some m) allow_over_budget isAlwaysInclude selected_files
        = Except.ok
          ((alwaysPass (alwaysFilesOf isAlwaysInclude selected_files)).1 ++
              (normalSelect
                (m - (alwaysPass (alwaysFilesOf isAlwaysInclude selected_files)).2)
                (normalFilesOf isAlwaysInclude selected_files) 0).1,
            (normalSelect
              (m - (alwaysPass (alwaysFilesOf isAlwaysInclude selected_files)).2)
              (normalFilesOf isAlwaysInclude selected_files) 0).2.1,
            (alwaysPass (alwaysFilesOf isAlwaysInclude selected_files)).2,
            (normalSelect
              (m - (alwaysPass (alwaysFilesOf isAlwaysInclude selected_files)).2)
              (normalFilesOf isAlwaysInclude selected_files) 0).2.2)) := by
  have hb : ((decide (m < (alwaysPass (alwaysFilesOf isAlwaysInclude selected_files)).2)
        && !allow_over_budget) = true) ↔
      (m < (alwaysPass (alwaysFilesOf isAlwaysInclude selected_files)).2 ∧
        allow_over_budget = false) := by
    simp
  refine ⟨?_, ⟨?_, ?_⟩, ?_⟩
  · intro e
    by_cases h : m < (alwaysPass (alwaysFilesOf isAlwaysInclude selected_files)).2 ∧
        allow_over_budget = false
    · rw [run_token_budget, if_pos (hb.mpr h)]
      simp only [Except.error.injEq]
      constructor
      · intro he
        exact ⟨h.1, h.2, he.symm⟩
      · intro ⟨_, _, he⟩
        exact he.symm
    · rw [run_token_budget, if_neg (fun hc => h (hb.mp hc))]
      simp only [reduceCtorEq, false_iff]
      intro hc
      exact h ⟨hc.1, hc.2.1⟩
  · rw [remainingBudget]
    by_cases h : m < (alwaysPass (alwaysFilesOf isAlwaysInclude selected_files)).2
    · rw [if_pos h]
      congr 1
      omega
    · rw [if_neg h]
  · omega
  · intro h
    rw [run_token_budget, if_neg (fun hc => h (hb.mp hc))]
    congr 1
    rw [normalPhase]
    have hr : remainingBudget (some m)
        (alwaysPass (alwaysFilesOf isAlwaysInclude selected_files)).2
        = some (m - (alwaysPass (alwaysFilesOf isAlwaysInclude selected_files)).2) := by
      rw [remainingBudget]
      by_cases hlt : m < (alwaysPass (alwaysFilesOf isAlwaysInclude selected_files)).2
      · rw [if_pos hlt]
        congr 1
        omega
      · rw [if_neg hlt]
    rw [hr, normalStep_foldl_spec]
    simp

/-! ### C6: stitch-story sort -/

theorem then_ne_gt (x y : Ordering) :
    (x.then y ≠ .gt) ↔ (x = .lt ∨ (x = .eq ∧ y ≠ .gt)) := by
  cases x <;> simp [Ordering.then]

theorem cmpQ_cases (a b : ℚ) :
    (cmpQ a b = .lt ↔ a < b) ∧ (cmpQ a b = .eq ↔ a = b) ∧ (cmpQ a b = .gt ↔ b < a) := by
  unfold cmpQ
  rcases lt_trichotomy a b with h | h | h
  · simp [h, not_lt_of_lt h, ne_of_lt h]
  · simp [h, lt_irrefl]
  · simp [h, not_lt_of_lt h, (ne_of_lt h).symm]

theorem cmpS_cases (a b : String) :
    (cmpS a b = .lt ↔ a < b) ∧ (cmpS a b = .eq ↔ a = b) ∧ (cmpS a b = .gt ↔ b < a) := by
  unfold cmpS
  rcases lt_trichotomy a b with h | h | h
  · simp [h, not_lt_of_lt h, ne_of_lt h]
  · simp [h, lt_irrefl]
  · simp [h, not_lt_of_lt h, (ne_of_lt h).symm]

theorem cmpN_cases (a b : ℕ) :
    (cmpN a b = .lt ↔ a < b) ∧ (cmpN a b = .eq ↔ a = b) ∧ (cmpN a b = .gt ↔ b < a) := by
  unfold cmpN
  rcases lt_trichotomy a b with h | h | h
  · simp [h, not_lt_of_lt h, ne_of_lt h]
  · simp [h, lt_irrefl]
  · simp [h, not_lt_of_lt h, (ne_of_lt h).symm]

theorem cmpQ_lt_iff (a b : ℚ) : cmpQ a b = .lt ↔ a < b := (cmpQ_cases a b).1
theorem cmpQ_eq_iff (a b : ℚ) : cmpQ a b = .eq ↔ a = b := (cmpQ_cases a b).2.1
theorem cmpQ_gt_iff (a b : ℚ) : cmpQ a b = .gt ↔ b < a := (cmpQ_cases a b).2.2
theorem cmpS_lt_iff (a b : String) : cmpS a b = .lt ↔ a < b := (cmpS_cases a b).1
theorem cmpS_eq_iff (a b : String) : cmpS a b = .eq ↔ a = b := (cmpS_cases a b).2.1
theorem cmpS_gt_iff (a b : String) : cmpS a b = .gt ↔ b < a := (cmpS_cases a b).2.2
theorem cmpN_lt_iff (a b : ℕ) : cmpN a b = .lt ↔ a < b := (cmpN_cases a b).1
theorem cmpN_eq_iff (a b : ℕ) : cmpN a b = .eq ↔ a = b := (cmpN_cases a b).2.1
theorem cmpN_gt_iff (a b : ℕ) : cmpN a b = .gt ↔ b < a := (cmpN_cases a b).2.2

theorem stitchCmp_ne_gt_iff (seed_ids : List String)
    (stitched : String → Option StitchTier) (a b : Chunk) :
    (stitchCmp seed_ids stitched a b ≠ .gt) ↔
      storyKey seed_ids stitched a ≤ storyKey seed_ids stitched b := by
  rw [stitchCmp, storyKey, storyKey]
  simp only [ne_eq, then_ne_gt, Prod.Lex.le_iff, Prod.Lex.lt_iff, cmpN_lt_iff, cmpN_eq_iff,
    cmpN_gt_iff, cmpQ_lt_iff, cmpQ_eq_iff, cmpQ_gt_iff, cmpS_lt_iff, cmpS_eq_iff,
    cmpS_gt_iff, not_lt, OrderDual.toDual_lt_toDual, OrderDual.toDual_le_toDual,
    OrderDual.toDual_inj]
  exact or_congr Iff.rfl (and_congr Iff.rfl (or_congr Iff.rfl
    (and_congr eq_comm Iff.rfl)))

theorem stitch_le_trans (seed_ids : List String)
    (stitched : String → Option StitchTier) (a b c : Chunk)
    (hab : decide (stitchCmp seed_ids stitched a b ≠ Ordering.gt) = true)
    (hbc : decide (stitchCmp seed_ids stitched b c ≠ Ordering.gt) = true) :
    decide (stitchCmp seed_ids stitched a c ≠ Ordering.gt) = true := by
  have hab' : stitchCmp seed_ids stitched a b ≠ .gt := by simpa using hab
  have hbc' : stitchCmp seed_ids stitched b c ≠ .gt := by simpa using hbc
  have : stitchCmp seed_ids stitched a c ≠ .gt :=
    (stitchCmp_ne_gt_iff _ _ _ _).mpr
      (le_trans ((stitchCmp_ne_gt_iff _ _ _ _).mp hab')
        ((stitchCmp_ne_gt_iff _ _ _ _).mp hbc'))
  simpa using this

theorem stitch_le_total (seed_ids : List String)
    (stitched : String → Option StitchTier) (a b : Chunk) :
    (decide (stitchCmp seed_ids stitched a b ≠ Ordering.gt)
      || decide (stitchCmp seed_ids stitched b a ≠ Ordering.gt)) = true := by
  rcases le_total (storyKey seed_ids stitched a) (storyKey seed_ids stitched b) with h | h
  · have := (stitchCmp_ne_gt_iff _ _ _ _).mpr h
    simp [this]
  · have := (stitchCmp_ne_gt_iff _ _ _ _).mpr h
    simp [this]

/-- C6. The stitch-story sort returns a permutation of its input ordered by
the lexicographic key (group, priority descending, path ascending, start
line ascending, id ascending), where the group key is 0 for seed chunks,
1 to 4 for the Definition, Callee, Caller and CrossCrate stitch tiers and
5 for every other chunk; in particular any two chunks of the same group
appear in descending priority order with ties broken by ascending path,
then ascending start line, then ascending id. -/
theorem C6_sort_chunks_for_stitch_story_order (chunks : List Chunk)
    (seed_ids : List String) (stitched : String → Option StitchTier) :
    List.Perm (sort_chunks_for_stitch_story chunks seed_ids stitched) chunks ∧
    (sort_chunks_for_stitch_story chunks seed_ids stitched).Pairwise
      (fun a b => storyKey seed_ids stitched a ≤ storyKey seed_ids stitched b) ∧
    (sort_chunks_for_stitch_story chunks seed_ids stitched).Pairwise
      (fun a b => sort_group seed_ids stitched a = sort_group seed_ids stitched b →
        b.priority < a.priority ∨
          (b.priority = a.priority ∧
            (a.path < b.path ∨
              (a.path = b.path ∧
                (a.start_line < b.start_line ∨
                  (a.start_line = b.start_line ∧ a.id ≤ b.id)))))) := by
  have hsorted := @List.sorted_mergeSort _
    (fun a b => decide (stitchCmp seed_ids stitched a b ≠ Ordering.gt))
    (stitch_le_trans seed_ids stitched) (stitch_le_total seed_ids stitched) chunks
  have hpair : (sort_chunks_for_stitch_story chunks seed_ids stitched).Pairwise
      (fun a b => storyKey seed_ids stitched a ≤ storyKey seed_ids stitched b) := by
    refine List.Pairwise.imp ?_ hsorted
    intro a b h
    simp only [decide_eq_true_eq] at h
    exact (stitchCmp_ne_gt_iff _ _ _ _).mp h
  refine ⟨List.mergeSort_perm chunks _, hpair, ?_⟩
  refine List.Pairwise.imp ?_ hpair
  intro a b h hg
  rw [storyKey, storyKey, Prod.Lex.le_iff] at h
  rcases h with h | ⟨_, h⟩
  · simp only [hg, lt_self_iff_false] at h
  · rw [Prod.Lex.le_iff] at h
    rcases h with h | ⟨h1, h⟩
    · exact Or.inl (by simpa using h)
    · refine Or.inr ⟨by simpa using h1.symm, ?_⟩
      rw [Prod.Lex.le_iff] at h
      rcases h with h | ⟨h2, h⟩
      · exact Or.inl h
      · refine Or.inr ⟨h2, ?_⟩
        rw [Prod.Lex.le_iff] at h
        rcases h with h | ⟨h3, h⟩
        · exact Or.inl h
        · exact Or.inr ⟨h3, h⟩

/-! ### Tokenizer refinement: the source tokenizer extracts exactly the
maximal token-character runs -/

theorem rustSplit_ne_nil (p : Char → Bool) (l : List Char) : rustSplit p l ≠ [] := by
  cases l with
  | nil => simp [rustSplit]
  | cons c cs =>
    rw [rustSplit]
    by_cases h : p c
    · simp [h]
    · simp only [h]
      cases rustSplit p cs <;> simp

theorem rustSplit_eq_takeWhile_cons (p : Char → Bool) (l : List Char) :
    rustSplit p l =
      (l.takeWhile (fun c => !(p c))) ::
        (match l.dropWhile (fun c => !(p c)) with
          | [] => []
          | _ :: rest => rustSplit p rest) := by
  induction l with
  | nil => simp [rustSplit]
  | cons c cs ih =>
    by_cases h : p c
    · rw [rustSplit]
      simp [h, List.takeWhile_cons, List.dropWhile_cons]
    · rw [rustSplit]
      simp only [h, if_false, Bool.false_eq_true]
      rw [ih]
      simp [h, List.takeWhile_cons, List.dropWhile_cons]

theorem mem_rustSplit_chars (p : Char → Bool) (l : List Char) :
    ∀ t ∈ rustSplit p l, ∀ c ∈ t, p c = false := by
  induction l with
  | nil =>
    intro t ht c hc
    simp [rustSplit] at ht
    subst ht
    simp at hc
  | cons x xs ih =>
    intro t ht c hc
    rw [rustSplit] at ht
    by_cases h : p x
    · simp only [h, if_true] at ht
      rcases List.mem_cons.mp ht with h1 | h1
      · subst h1; simp at hc
      · exact ih t h1 c hc
    · simp only [h, if_false, Bool.false_eq_true] at ht
      rcases hsp : rustSplit p xs with _ | ⟨t0, ts⟩
      · exact absurd hsp (rustSplit_ne_nil p xs)
      · rw [hsp] at ht
        rcases List.mem_cons.mp ht with h1 | h1
        · subst h1
          rcases List.mem_cons.mp hc with h2 | h2
          · subst h2; simpa using h
          · exact ih t0 (by rw [hsp]; exact List.mem_cons_self _ _) c h2
        · exact ih t (by rw [hsp]; exact List.mem_cons_of_mem _ h1) c hc

theorem dropWhile_head_false {α : Type} (p : α → Bool) (l : List α) (sep : α)
    (rest : List α) (h : l.dropWhile p = sep :: rest) : p sep = false := by
  induction l with
  | nil => simp at h
  | cons x xs ih =>
    rw [List.dropWhile_cons] at h
    by_cases hx : p x
    · exact ih (by simpa [hx] using h)
    · simp only [hx, if_false, Bool.false_eq_true] at h
      obtain ⟨h1, _⟩ := List.cons.injEq .. ▸ h
      rw [← h1]
      simpa using hx

theorem rustSplit_not_eq (q : Char → Bool) (l : List Char) :
    rustSplit (fun c => !(q c)) l =
      (l.takeWhile q) ::
        (match l.dropWhile q with
          | [] => []
          | _ :: rest => rustSplit (fun c => !(q c)) rest) := by
  have h := rustSplit_eq_takeWhile_cons (fun c => !(q c)) l
  simpa [Bool.not_not] using h

theorem filter_rustSplit_eq_tokenRuns (l : List Char) :
    (rustSplit (fun c => !(isTokenChar c)) l).filter (fun t => t ≠ []) = tokenRuns l := by
  induction l using tokenRuns.induct with
  | case1 => simp [rustSplit, tokenRuns]
  | case2 c cs h ih =>
    rw [tokenRuns]
    simp only [h, if_true]
    rw [rustSplit_not_eq isTokenChar (c :: cs)]
    rw [List.takeWhile_cons_of_pos h, List.dropWhile_cons_of_pos h]
    rw [List.filter_cons]
    have hne : (decide ((c :: List.takeWhile isTokenChar cs) ≠ []) = true) := by simp
    rw [if_pos hne]
    congr 1
    rcases hdrop : List.dropWhile isTokenChar cs with _ | ⟨sep, rest⟩
    · simp [tokenRuns]
    · rw [hdrop] at ih
      have hsep : isTokenChar sep = false := dropWhile_head_false _ _ _ _ hdrop
      rw [rustSplit] at ih
      simp only [hsep, Bool.not_false, if_true] at ih
      rw [List.filter_cons] at ih
      simpa using ih
  | case3 c cs h ih =>
    rw [tokenRuns]
    simp only [h, Bool.false_eq_true, if_false]
    rw [rustSplit]
    simp only [h, Bool.not_false, if_true]
    rw [List.filter_cons]
    simpa using ih

theorem isTokenChar_not_ws (c : Char) (h : isTokenChar c = true) :
    c.isWhitespace = false := by
  cases hw : c.isWhitespace
  · rfl
  · exfalso
    have hw' : (c = ' ' || c = '\t' || c = '\r' || c = '\n') = true := hw
    simp only [Bool.or_eq_true, decide_eq_true_eq] at hw'
    rcases hw' with ((h1 | h1) | h1) | h1 <;> subst h1 <;> exact absurd h (by decide)

theorem dropWhile_eq_self_of {α : Type} (p : α → Bool) (l : List α)
    (h : ∀ c ∈ l, p c = false) : l.dropWhile p = l := by
  cases l with
  | nil => rfl
  | cons x xs => simp [List.dropWhile_cons, h x (List.mem_cons_self _ _)]

theorem trimChars_eq_self (l : List Char) (h : ∀ c ∈ l, c.isWhitespace = false) :
    trimChars l = l := by
  rw [trimChars, dropWhile_eq_self_of _ _ h, dropWhile_eq_self_of, List.reverse_reverse]
  intro c hc
  exact h c (List.mem_reverse.mp hc)

/-- The source tokenizer equals the specification tokenizer: the tokens are
exactly the maximal runs of alphanumeric-or-underscore characters,
case-folded, of length at least two. -/
theorem tokenize_eq_tokenizeSpec (s : String) : tokenize s = tokenizeSpec s := by
  rw [tokenize, tokenizeSpec]
  have hchars := mem_rustSplit_chars (fun c => !(isTokenChar c)) s.data
  have hmapeq : (rustSplit (fun c => !(isTokenChar c)) s.data).map
      (fun t => String.mk ((trimChars t).map Char.toLower))
      = (rustSplit (fun c => !(isTokenChar c)) s.data).map
        (fun t => String.mk (t.map Char.toLower)) := by
    refine List.map_congr_left ?_
    intro t ht
    have : trimChars t = t := by
      refine trimChars_eq_self t ?_
      intro c hc
      have hp := hchars t ht c hc
      simp only [Bool.not_eq_false'] at hp
      exact isTokenChar_not_ws c hp
    rw [this]
  rw [hmapeq]
  rw [List.filter_map, List.filter_map]
  have hlen : ∀ (t : List Char),
      ((fun t => decide (2 ≤ t.length)) ∘ fun t => String.mk (t.map Char.toLower))
        t = decide (2 ≤ t.length) := by
    intro t
    have hl : (String.mk (t.map Char.toLower)).length = t.length := by
      show (t.map Char.toLower).length = t.length
      exact List.length_map _ _
    simp [Function.comp, hl]
  rw [List.filter_congr (fun t _ => hlen t), List.filter_congr (fun t _ => hlen t)]
  rw [← filter_rustSplit_eq_tokenRuns, List.filter_filter]
  refine congrArg _ (List.filter_congr ?_)
  intro t _
  cases t with
  | nil => simp
  | cons c cs => simp

/-! ### BM25 score positivity and normalization bounds -/

theorem foldl_nonneg_of_step {α : Type} (f : ℚ → α → ℚ) (l : List α)
    (h : ∀ acc t, 0 ≤ acc → 0 ≤ f acc t) :
    ∀ acc, 0 ≤ acc → 0 ≤ l.foldl f acc := by
  induction l with
  | nil => intro acc hacc; simpa using hacc
  | cons x xs ih =>
    intro acc hacc
    rw [List.foldl_cons]
    exact ih (f acc x) (h acc x hacc)

theorem bm25DocScore_nonneg (log : ℚ → ℚ) (hlog : ∀ x : ℚ, 1 < x → 0 < log x)
    (query_terms : List String) (doc_freq : String → ℕ) (total_docs avg_doc_len : ℚ)
    (doc : List String) (havg : 0 < avg_doc_len)
    (hdf : ∀ t, ((doc_freq t : ℕ) : ℚ) ≤ total_docs) :
    0 ≤ bm25DocScore log query_terms doc_freq total_docs avg_doc_len doc := by
  rw [bm25DocScore]
  by_cases hd : doc = []
  · simp [hd]
  · simp only [hd, if_false]
    refine foldl_nonneg_of_step _ _ ?_ 0 le_rfl
    intro acc term hacc
    by_cases htf : ((termFreq doc term : ℕ) : ℚ) ≤ 0
    · simpa [htf] using hacc
    · simp only [htf, if_false]
      push_neg at htf
      have hdf' := hdf term
      have hdfnn : (0 : ℚ) ≤ ((doc_freq term : ℕ) : ℚ) := by positivity
      have hnum : (0 : ℚ) < total_docs - ((doc_freq term : ℕ) : ℚ) + 1 / 2 := by linarith
      have hden : (0 : ℚ) < ((doc_freq term : ℕ) : ℚ) + 1 / 2 := by linarith
      have harg : (1 : ℚ) <
          (total_docs - ((doc_freq term : ℕ) : ℚ) + 1 / 2) /
            (((doc_freq term : ℕ) : ℚ) + 1 / 2) + 1 := by
        have := div_pos hnum hden
        linarith
      have hidf := hlog _ harg
      have hdl : (0 : ℚ) ≤ ((doc.length : ℕ) : ℚ) := by positivity
      have hinner : (0 : ℚ) ≤ 1 - B + B * (((doc.length : ℕ) : ℚ) / avg_doc_len) := by
        have h1 : (0 : ℚ) ≤ ((doc.length : ℕ) : ℚ) / avg_doc_len :=
          div_nonneg hdl (le_of_lt havg)
        have hB : B = 3 / 4 := rfl
        nlinarith
      have hdenom : (0 : ℚ) < ((termFreq doc term : ℕ) : ℚ) +
          K1 * (1 - B + B * (((doc.length : ℕ) : ℚ) / avg_doc_len)) := by
        have hK : K1 = 3 / 2 := rfl
        nlinarith
      have hterm : (0 : ℚ) ≤
          log ((total_docs - ((doc_freq term : ℕ) : ℚ) + 1 / 2) /
              (((doc_freq term : ℕ) : ℚ) + 1 / 2) + 1) *
            ((((termFreq doc term : ℕ) : ℚ) * (K1 + 1)) /
              (((termFreq doc term : ℕ) : ℚ) +
                K1 * (1 - B + B * (((doc.length : ℕ) : ℚ) / avg_doc_len)))) := by
        have hK : K1 = 3 / 2 := rfl
        have hnumer : (0 : ℚ) ≤ ((termFreq doc term : ℕ) : ℚ) * (K1 + 1) := by nlinarith
        exact mul_nonneg (le_of_lt hidf) (div_nonneg hnumer (le_of_lt hdenom))
      linarith

theorem score_query_against_chunks_nonneg (log : ℚ → ℚ)
    (hlog : ∀ x : ℚ, 1 < x → 0 < log x) (chunks : List Chunk) (query : String) :
    ∀ s ∈ score_query_against_chunks log chunks query, 0 ≤ s := by
  intro s hs
  rw [score_query_against_chunks] at hs
  by_cases hc : chunks = []
  · simp [hc] at hs
  · simp only [hc, if_false] at hs
    by_cases hq : tokenize query = []
    · rw [if_pos hq] at hs
      rcases List.mem_map.mp hs with ⟨_, _, hrfl⟩
      exact hrfl ▸ le_rfl
    · rw [if_neg hq] at hs
      rcases List.mem_map.mp hs with ⟨doc, _, hrfl⟩
      subst hrfl
      apply bm25DocScore_nonneg log hlog
      · exact lt_of_lt_of_le one_pos (le_max_right _ _)
      · intro t
        have hle : docFreq (chunks.map (fun c => tokenize c.content)) t ≤
            (chunks.map (fun c => tokenize c.content)).length :=
          List.length_filter_le _ _
        have hlen : (chunks.map (fun c => tokenize c.content)).length = chunks.length :=
          List.length_map _ _
        exact_mod_cast le_trans hle (le_of_eq hlen)

theorem maxScore_nonneg_aux (l : List ℚ) : ∀ b : ℚ, b ≤ l.foldl max b := by
  induction l with
  | nil => intro b; simp
  | cons x xs ih =>
    intro b
    rw [List.foldl_cons]
    exact le_trans (le_max_left b x) (ih (max b x))

theorem mem_le_foldl_max (l : List ℚ) : ∀ (b : ℚ), ∀ s ∈ l, s ≤ l.foldl max b := by
  induction l with
  | nil => intro b s hs; simp at hs
  | cons x xs ih =>
    intro b s hs
    rw [List.foldl_cons]
    rcases List.mem_cons.mp hs with h | h
    · subst h
      exact le_trans (le_max_right b s) (maxScore_nonneg_aux xs _)
    · exact ih (max b x) s h

theorem normalizedScore_bounds (m s : ℚ) (hs : 0 ≤ s) (hm : s ≤ m) :
    0 ≤ normalizedScore m s ∧ normalizedScore m s ≤ 1 := by
  rw [normalizedScore]
  by_cases h : 0 < m
  · simp only [h, if_true]
    exact ⟨div_nonneg hs (le_of_lt h), (div_le_one h).mpr hm⟩
  · simp [h]

/-- C4. Step-1 task reranking: each chunk priority becomes
round3(base * (1 - w) + normalized * w) at the clamped weight w (the export
pipeline passes 0.4); normalized is the raw BM25 score divided by the
maximum raw score over the chunk list (zero when the maximum is zero) and
lies in [0, 1] whenever the logarithm is positive above one (as f64::ln
is); the raw scores are BM25 with k1 = 1.5 and b = 0.75 over query and
content tokens, and the tokenizer extracts exactly the maximal
alphanumeric-or-underscore runs of length at least two, case-folded. -/
theorem C4_rerank_step1_formula (log : ℚ → ℚ) (chunks : List Chunk) (query : String)
    (relevance_weight : ℚ) (hlog : ∀ x : ℚ, 1 < x → 0 < log x) :
    K1 = 3 / 2 ∧ B = 3 / 4 ∧ exportTaskWeight = 2 / 5 ∧
    (0 ≤ clamp01 relevance_weight ∧ clamp01 relevance_weight ≤ 1) ∧
    (∀ s, tokenize s = tokenizeSpec s) ∧
    (rerank_step1 log chunks query relevance_weight).map Chunk.priority =
      (chunks.zip (score_query_against_chunks log chunks query)).map
        (fun p => round3 (p.1.priority * (1 - clamp01 relevance_weight) +
          normalizedScore (maxScore (score_query_against_chunks log chunks query)) p.2 *
            clamp01 relevance_weight)) ∧
    (∀ s ∈ score_query_against_chunks log chunks query,
      0 ≤ normalizedScore (maxScore (score_query_against_chunks log chunks query)) s ∧
        normalizedScore (maxScore (score_query_against_chunks log chunks query)) s ≤ 1) := by
  refine ⟨rfl, rfl, rfl, ⟨?_, ?_⟩, tokenize_eq_tokenizeSpec, ?_, ?_⟩
  · exact le_min (le_max_right _ _) zero_le_one
  · exact min_le_right _ _
  · rw [rerank_step1, List.map_map]
    refine List.map_congr_left ?_
    intro p _
    simp [step1Priority]
  · intro s hs
    exact normalizedScore_bounds _ _
      (score_query_against_chunks_nonneg log hlog chunks query s hs)
      (mem_le_foldl_max _ 0 s hs)

/-- Witness for C4 at a concrete input: the logarithm model x - 1 is
positive above one, and the theorem applies to a one-chunk list. -/
theorem C4_rerank_step1_formula_witness :
    (∀ x : ℚ, 1 < x → 0 < x - 1) ∧
    (K1 = 3 / 2 ∧ B = 3 / 4 ∧ exportTaskWeight = 2 / 5 ∧
      (0 ≤ clamp01 (2 / 5) ∧ clamp01 (2 / 5) ≤ 1) ∧
      (∀ s, tokenize s = tokenizeSpec s) ∧
      (rerank_step1 (fun x => x - 1) [c4chunk] "alpha" (2 / 5)).map Chunk.priority =
        ([c4chunk].zip (score_query_against_chunks (fun x => x - 1) [c4chunk] "alpha")).map
          (fun p => round3 (p.1.priority * (1 - clamp01 (2 / 5)) +
            normalizedScore
              (maxScore (score_query_against_chunks (fun x => x - 1) [c4chunk] "alpha"))
              p.2 * clamp01 (2 / 5))) ∧
      (∀ s ∈ score_query_against_chunks (fun x => x - 1) [c4chunk] "alpha",
        0 ≤ normalizedScore
            (maxScore (score_query_against_chunks (fun x => x - 1) [c4chunk] "alpha")) s ∧
          normalizedScore
            (maxScore (score_query_against_chunks (fun x => x - 1) [c4chunk] "alpha")) s
            ≤ 1)) :=
  ⟨fun x hx => by simpa using sub_pos.mpr hx,
    C4_rerank_step1_formula (fun x => x - 1) [c4chunk] "alpha" (2 / 5)
      (fun x hx => by simpa using sub_pos.mpr hx)⟩

/-! ### C9: reranking with a query that matches nothing -/

theorem foldl_fixed {α β : Type} (f : β → α → β) (l : List α)
    (h : ∀ b t, t ∈ l → f b t = b) : ∀ b, l.foldl f b = b := by
  induction l with
  | nil => intro b; rfl
  | cons x xs ih =>
    intro b
    rw [List.foldl_cons, h b x (List.mem_cons_self _ _)]
    exact ih (fun b t ht => h b t (List.mem_cons_of_mem _ ht)) b

theorem score_query_all_zero (log : ℚ → ℚ) (chunks : List Chunk) (query : String)
    (hmiss : ∀ c ∈ chunks, ∀ t ∈ tokenize query, t ∉ tokenize c.content) :
    score_query_against_chunks log chunks query = chunks.map (fun _ => 0) := by
  rw [score_query_against_chunks]
  by_cases hc : chunks = []
  · simp [hc]
  · rw [if_neg hc]
    by_cases hq : tokenize query = []
    · rw [if_pos hq]
    · rw [if_neg hq, List.map_map]
      refine List.map_congr_left ?_
      intro c hcm
      show bm25DocScore _ _ _ _ _ (tokenize c.content) = 0
      rw [bm25DocScore]
      by_cases hd : tokenize c.content = []
      · simp [hd]
      · rw [if_neg hd]
        refine foldl_fixed _ _ ?_ 0
        intro b term hterm
        have htf : termFreq (tokenize c.content) term = 0 := by
          rw [termFreq, List.length_eq_zero, List.filter_eq_nil_iff]
          intro t ht hteq
          have ht' : t = term := by simpa using hteq
          exact absurd (ht' ▸ ht) (hmiss c hcm term hterm)
        simp [htf]

theorem foldl_max_le_of (l : List ℚ) (bound : ℚ) (h : ∀ s ∈ l, s ≤ bound) :
    ∀ b, b ≤ bound → l.foldl max b ≤ bound := by
  induction l with
  | nil => intro b hb; simpa using hb
  | cons x xs ih =>
    intro b hb
    rw [List.foldl_cons]
    exact ih (fun s hs => h s (List.mem_cons_of_mem _ hs)) _
      (max_le hb (h x (List.mem_cons_self _ _)))

theorem maxScore_zeros (chunks : List Chunk) :
    maxScore (chunks.map (fun _ => (0 : ℚ))) = 0 := by
  refine le_antisymm ?_ (maxScore_nonneg_aux _ 0)
  refine foldl_max_le_of _ 0 ?_ 0 le_rfl
  intro s hs
  rcases List.mem_map.mp hs with ⟨_, _, h⟩
  exact h ▸ le_rfl

theorem zip_self_map {α β : Type} (l : List α) (g : α → β) :
    l.zip (l.map g) = l.map (fun a => (a, g a)) := by
  induction l with
  | nil => rfl
  | cons x xs ih => simp [List.zip_cons_cons, ih]

theorem upsert_values_zero (acc : List (String × ℚ)) (k : String)
    (h : ∀ e ∈ acc, e.2 = 0) : ∀ e ∈ lexByFileUpsert acc k 0, e.2 = 0 := by
  rw [lexByFileUpsert]
  by_cases hany : acc.any (fun e => e.1 = k)
  · rw [if_pos hany]
    intro e he
    rcases List.mem_map.mp he with ⟨e0, he0, hrfl⟩
    by_cases hk : e0.1 = k
    · have := h e0 he0
      simp only [hk, if_true] at hrfl
      rw [← hrfl]
      simp [this]
    · simp only [hk, if_false] at hrfl
      exact hrfl ▸ h e0 he0
  · rw [if_neg hany]
    intro e he
    rcases List.mem_append.mp he with h1 | h1
    · exact h e h1
    · simp at h1
      simp [h1]

theorem buildLexByFile_zero_values (pairs : List (Chunk × ℚ)) :
    ∀ e ∈ buildLexByFile 0 pairs, e.2 = 0 := by
  rw [buildLexByFile]
  have hgen : ∀ (ps : List (Chunk × ℚ)) (acc : List (String × ℚ)),
      (∀ e ∈ acc, e.2 = 0) →
      ∀ e ∈ ps.foldl (fun acc p => lexByFileUpsert acc p.1.path (normalizedScore 0 p.2)) acc,
        e.2 = 0 := by
    intro ps
    induction ps with
    | nil => intro acc hacc; simpa using hacc
    | cons p ps ih =>
      intro acc hacc
      rw [List.foldl_cons]
      have hz : normalizedScore 0 p.2 = 0 := by simp [normalizedScore]
      refine ih _ ?_
      rw [hz]
      exact upsert_values_zero acc p.1.path hacc
  exact hgen pairs [] (by simp)

/-- First component of rerank_chunks_by_task: the step-1 chunks with the
dependency-expansion boost applied. -/
theorem rerank_chunks_by_task_fst (log : ℚ → ℚ) (chunks : List Chunk) (query : String)
    (relevance_weight : ℚ) :
    (rerank_chunks_by_task log chunks query relevance_weight).1 =
      (rerank_step1 log chunks query relevance_weight).map
        (fun c =>
          match dependency_expansion_scores
              (rerank_step1 log chunks query relevance_weight)
              (lexicalByFileOf log chunks query) c.path with
          | some expanded =>
            { c with priority := round3 (c.priority * (4 / 5) + expanded * (1 / 5)) }
          | none => c) := rfl

/-- C9. When the task query tokenizes to at least one term but no term
occurs in any chunk content, rerank_chunks_by_task still rescales every
chunk: the maximum raw BM25 score is zero, the normalized score is zero,
and every priority becomes round3(base * (1 - w)) at the clamped weight
(60 percent of the former value at the default weight 0.4, before
rounding); priorities are not left unchanged. -/
theorem C9_rerank_rescales_on_no_match (log : ℚ → ℚ) (chunks : List Chunk)
    (query : String) (relevance_weight : ℚ) (hq : tokenize query ≠ [])
    (hmiss : ∀ c ∈ chunks, ∀ t ∈ tokenize query, t ∉ tokenize c.content) :
    (rerank_chunks_by_task log chunks query relevance_weight).1 =
      chunks.map (fun c =>
        { c with priority := round3 (c.priority * (1 - clamp01 relevance_weight)) }) := by
  have hscores := score_query_all_zero log chunks query hmiss
  have hm : maxScore (score_query_against_chunks log chunks query) = 0 := by
    rw [hscores]
    exact maxScore_zeros chunks
  have hstep1 : rerank_step1 log chunks query relevance_weight =
      chunks.map (fun c =>
        { c with priority := round3 (c.priority * (1 - clamp01 relevance_weight)) }) := by
    simp only [rerank_step1]
    rw [hscores, zip_self_map, List.map_map]
    refine List.map_congr_left ?_
    intro c _
    simp only [Function.comp_apply]
    rw [maxScore_zeros]
    simp [step1Priority, normalizedScore]
  have hlexzero := buildLexByFile_zero_values (chunks.zip
    (score_query_against_chunks log chunks query))
  have hlex : lexicalByFileOf log chunks query = buildLexByFile 0
      (chunks.zip (score_query_against_chunks log chunks query)) := by
    rw [lexicalByFileOf, hm]
  have hseeds : seedsOf (lexicalByFileOf log chunks query) = [] := by
    rw [seedsOf]
    have hfil : (lexicalByFileOf log chunks query).filter (fun s => 0 < s.2) = [] := by
      rw [List.filter_eq_nil_iff]
      intro e he
      rw [hlex] at he
      have := hlexzero e he
      simp [this]
    rw [hfil]
    simp
  have hexp : ∀ (cs : List Chunk) (p : String), dependency_expansion_scores cs
      (lexicalByFileOf log chunks query) p = none := by
    intro cs p
    rw [dependency_expansion_scores]
    by_cases hkf : (cs.map Chunk.path).dedup = []
    · simp [hkf]
    · simp only [if_neg hkf, hseeds]
      rfl
  rw [rerank_chunks_by_task_fst, hstep1, List.map_map]
  refine List.map_congr_left ?_
  intro c _
  simp only [Function.comp_apply]
  rw [hexp]
/-- Witness for C9 at a concrete input: a query whose terms occur in no
chunk content still rescales the chunk priority. -/
theorem C9_rerank_rescales_on_no_match_witness :
    (tokenize "gamma delta" ≠ []) ∧
    (∀ c ∈ [c9chunk], ∀ t ∈ tokenize "gamma delta", t ∉ tokenize c.content) ∧
    (rerank_chunks_by_task (fun x => x - 1) [c9chunk] "gamma delta" (2 / 5)).1 =
      [c9chunk].map (fun c =>
        { c with priority := round3 (c.priority * (1 - clamp01 (2 / 5))) }) :=
  ⟨by decide, by decide,
    C9_rerank_rescales_on_no_match (fun x => x - 1) [c9chunk] "gamma delta" (2 / 5)
      (by decide) (by decide)⟩

/-! ### C5: dependency expansion -/

theorem combineMax_none_right (a : Option ℚ) : combineMax a none = a := by
  cases a <;> rfl

theorem combineMax_assoc (a b c : Option ℚ) :
    combineMax (combineMax a b) c = combineMax a (combineMax b c) := by
  cases a <;> cases b <;> cases c <;> simp [combineMax, max_assoc]

theorem combineMax_some_listMax2 (v : ℚ) (vs : List ℚ) :
    combineMax (some v) (listMax2 vs) = listMax2 (v :: vs) := by
  rw [listMax2]
  cases listMax2 vs <;> rfl

theorem scoreMapInsertMax_self (m : String → Option ℚ) (k : String) (v : ℚ) :
    scoreMapInsertMax m k v k = combineMax (m k) (some v) := by
  rw [scoreMapInsertMax]
  simp only [if_pos rfl]
  cases m k <;> rfl

theorem scoreMapInsertMax_other (m : String → Option ℚ) (k k' : String) (v : ℚ)
    (h : k ≠ k') : scoreMapInsertMax m k' v k = m k := by
  rw [scoreMapInsertMax]
  simp [h]

theorem applyAll_lookup (ps : List (String × ℚ)) (m : String → Option ℚ) (k : String) :
    applyAll ps m k = combineMax (m k) (listMax2 ((ps.filter (fun e => e.1 = k)).map Prod.snd)) := by
  induction ps generalizing m with
  | nil => simp [applyAll, combineMax_none_right, listMax2]
  | cons p ps ih =>
    rw [applyAll, List.foldl_cons]
    rw [show List.foldl (fun m p => scoreMapInsertMax m p.1 p.2) (scoreMapInsertMax m p.1 p.2) ps
      = applyAll ps (scoreMapInsertMax m p.1 p.2) from rfl]
    rw [ih]
    by_cases hk : p.1 = k
    · rw [List.filter_cons_of_pos (by simpa using hk)]
      rw [← hk] at *
      rw [scoreMapInsertMax_self, combineMax_assoc, List.map_cons,
        combineMax_some_listMax2]
    · rw [List.filter_cons_of_neg (by simpa using hk)]
      rw [scoreMapInsertMax_other m k p.1 p.2 (fun h => hk h.symm)]

theorem applyAll_append (xs ys : List (String × ℚ)) (m : String → Option ℚ) :
    applyAll (xs ++ ys) m = applyAll ys (applyAll xs m) := by
  simp [applyAll, List.foldl_append]

theorem applyAll_flatMap {α : Type} (l : List α) (g : α → List (String × ℚ))
    (m : String → Option ℚ) :
    applyAll (l.flatMap g) m = l.foldl (fun m x => applyAll (g x) m) m := by
  induction l generalizing m with
  | nil => rfl
  | cons x xs ih =>
    rw [List.flatMap_cons, applyAll_append, List.foldl_cons, ih]

theorem applyAll_map_const {α : Type} (l : List α) (key : α → String) (v : ℚ)
    (m : String → Option ℚ) :
    applyAll (l.map (fun x => (key x, v))) m =
      l.foldl (fun m x => scoreMapInsertMax m (key x) v) m := by
  rw [applyAll, List.foldl_map]

theorem foldl_congr_fn {α β : Type} (l : List α) (f g : β → α → β) (init : β)
    (h : ∀ acc x, x ∈ l → f acc x = g acc x) : l.foldl f init = l.foldl g init := by
  induction l generalizing init with
  | nil => rfl
  | cons x xs ih =>
    rw [List.foldl_cons, List.foldl_cons, h init x (List.mem_cons_self _ _)]
    exact ih _ (fun acc y hy => h acc y (List.mem_cons_of_mem _ hy))

theorem expansion_loop_eq_applyAll (graph : String → List String)
    (seeds : List (String × ℚ)) (m : String → Option ℚ) :
    seeds.foldl
      (fun expanded sv =>
        let expanded := scoreMapInsertMax expanded sv.1 sv.2
        (graph sv.1).foldl
          (fun expanded neighbor =>
            let expanded := scoreMapInsertMax expanded neighbor (min (sv.2 * (3 / 5)) 1)
            (graph neighbor).foldl
              (fun expanded neighbor2 =>
                scoreMapInsertMax expanded neighbor2 (min (sv.2 * (3 / 10)) 1))
              expanded)
          expanded)
      m = applyAll (expandContribs graph seeds) m := by
  rw [expandContribs, applyAll_flatMap]
  refine foldl_congr_fn _ _ _ _ ?_
  intro acc sv _
  show _ = applyAll ((sv.1, sv.2) :: (graph sv.1).flatMap _) acc
  rw [show applyAll ((sv.1, sv.2) :: (graph sv.1).flatMap (fun n =>
      (n, min (sv.2 * (3 / 5)) 1) ::
        (graph n).map (fun n2 => (n2, min (sv.2 * (3 / 10)) 1)))) acc
    = applyAll ((graph sv.1).flatMap (fun n =>
        (n, min (sv.2 * (3 / 5)) 1) ::
          (graph n).map (fun n2 => (n2, min (sv.2 * (3 / 10)) 1))))
        (scoreMapInsertMax acc sv.1 sv.2) from rfl]
  rw [applyAll_flatMap]
  refine foldl_congr_fn _ _ _ _ ?_
  intro acc2 n _
  show _ = applyAll ((n, min (sv.2 * (3 / 5)) 1) ::
    (graph n).map (fun n2 => (n2, min (sv.2 * (3 / 10)) 1))) acc2
  rw [show applyAll ((n, min (sv.2 * (3 / 5)) 1) ::
      (graph n).map (fun n2 => (n2, min (sv.2 * (3 / 10)) 1))) acc2
    = applyAll ((graph n).map (fun n2 => (n2, min (sv.2 * (3 / 10)) 1)))
        (scoreMapInsertMax acc2 n (min (sv.2 * (3 / 5)) 1)) from rfl]
  rw [applyAll_map_const]

theorem score_query_length (log : ℚ → ℚ) (chunks : List Chunk) (query : String) :
    (score_query_against_chunks log chunks query).length = chunks.length := by
  rw [score_query_against_chunks]
  by_cases hc : chunks = []
  · simp [hc]
  · rw [if_neg hc]
    by_cases hq : tokenize query = []
    · rw [if_pos hq, List.length_map]
    · rw [if_neg hq]
      simp

theorem rerank_step1_length (log : ℚ → ℚ) (chunks : List Chunk) (query : String)
    (w : ℚ) : (rerank_step1 log chunks query w).length = chunks.length := by
  rw [rerank_step1]
  simp [List.length_zip, score_query_length]

theorem upsert_values_pred (P : ℚ → Prop) (hmax : ∀ a b, P a → P b → P (max a b))
    (acc : List (String × ℚ)) (k : String) (v : ℚ)
    (hacc : ∀ e ∈ acc, P e.2) (hv : P v) :
    ∀ e ∈ lexByFileUpsert acc k v, P e.2 := by
  rw [lexByFileUpsert]
  by_cases hany : acc.any (fun e => e.1 = k)
  · rw [if_pos hany]
    intro e he
    rcases List.mem_map.mp he with ⟨e0, he0, hrfl⟩
    by_cases hk : e0.1 = k
    · simp only [hk, if_true] at hrfl
      rw [← hrfl]
      exact hmax _ _ (hacc e0 he0) hv
    · simp only [hk, if_false] at hrfl
      exact hrfl ▸ hacc e0 he0
  · rw [if_neg hany]
    intro e he
    rcases List.mem_append.mp he with h1 | h1
    · exact hacc e h1
    · simp at h1
      simp [h1, hv]

theorem lexicalByFileOf_values_bounds (log : ℚ → ℚ) (chunks : List Chunk)
    (query : String) (hlog : ∀ x : ℚ, 1 < x → 0 < log x) :
    ∀ e ∈ lexicalByFileOf log chunks query, 0 ≤ e.2 ∧ e.2 ≤ 1 := by
  rw [lexicalByFileOf, buildLexByFile]
  have hgen : ∀ (ps : List (Chunk × ℚ)),
      (∀ p ∈ ps, p.2 ∈ score_query_against_chunks log chunks query) →
      ∀ (acc : List (String × ℚ)), (∀ e ∈ acc, 0 ≤ e.2 ∧ e.2 ≤ 1) →
      ∀ e ∈ ps.foldl
        (fun acc p => lexByFileUpsert acc p.1.path
          (normalizedScore (maxScore (score_query_against_chunks log chunks query)) p.2)) acc,
        0 ≤ e.2 ∧ e.2 ≤ 1 := by
    intro ps
    induction ps with
    | nil => intro _ acc hacc; simpa using hacc
    | cons p ps ih =>
      intro hps acc hacc
      rw [List.foldl_cons]
      refine ih (fun q hq => hps q (List.mem_cons_of_mem _ hq)) _ ?_
      refine upsert_values_pred (fun v => 0 ≤ v ∧ v ≤ 1) ?_ _ _ _ hacc ?_
      · rintro a b ⟨ha0, ha1⟩ ⟨hb0, hb1⟩
        exact ⟨le_max_of_le_left ha0, max_le ha1 hb1⟩
      · have hmem := hps p (List.mem_cons_self _ _)
        exact normalizedScore_bounds _ _
          (score_query_against_chunks_nonneg log hlog chunks query _ hmem)
          (mem_le_foldl_max _ 0 _ hmem)
  refine hgen _ ?_ [] (by simp)
  intro p hp
  exact (List.of_mem_zip hp).2

theorem seedsOf_mem_pos (lex : List (String × ℚ)) :
    ∀ sv ∈ seedsOf lex, sv ∈ lex ∧ 0 < sv.2 := by
  intro sv h
  have h1 : sv ∈ (lex.filter (fun s => 0 < s.2)).mergeSort seedLe :=
    (List.take_sublist _ _).subset h
  have h2 : sv ∈ lex.filter (fun s => 0 < s.2) :=
    (List.mergeSort_perm _ _).subset h1
  have h3 := List.mem_filter.mp h2
  exact ⟨h3.1, by simpa using h3.2⟩

theorem seedLe_iff (a b : String × ℚ) : seedLe a b = true ↔ seedKey a ≤ seedKey b := by
  rw [seedLe, decide_eq_true_eq, seedKey, seedKey]
  simp only [ne_eq, then_ne_gt, Prod.Lex.le_iff, cmpQ_lt_iff, cmpQ_eq_iff, cmpS_gt_iff,
    not_lt, OrderDual.toDual_lt_toDual, OrderDual.toDual_inj]
  exact or_congr Iff.rfl (and_congr eq_comm Iff.rfl)

theorem seed_le_trans (a b c : String × ℚ) (hab : seedLe a b = true)
    (hbc : seedLe b c = true) : seedLe a c = true :=
  (seedLe_iff _ _).mpr (le_trans ((seedLe_iff _ _).mp hab) ((seedLe_iff _ _).mp hbc))

theorem seed_le_total (a b : String × ℚ) : (seedLe a b || seedLe b a) = true := by
  rcases le_total (seedKey a) (seedKey b) with h | h
  · have := (seedLe_iff _ _).mpr h
    simp [this]
  · have := (seedLe_iff _ _).mpr h
    simp [this]

theorem seedsOf_sorted (lex : List (String × ℚ)) :
    (seedsOf lex).Pairwise (fun a b => b.2 < a.2 ∨ (a.2 = b.2 ∧ a.1 ≤ b.1)) := by
  have hsorted := @List.sorted_mergeSort _ seedLe seed_le_trans seed_le_total
    (lex.filter (fun s => 0 < s.2))
  have hpair : ((lex.filter (fun s => 0 < s.2)).mergeSort seedLe).Pairwise
      (fun a b => b.2 < a.2 ∨ (a.2 = b.2 ∧ a.1 ≤ b.1)) := by
    refine List.Pairwise.imp ?_ hsorted
    intro a b h
    have hk := (seedLe_iff _ _).mp h
    rw [seedKey, seedKey, Prod.Lex.le_iff] at hk
    rcases hk with hk | ⟨hk1, hk2⟩
    · exact Or.inl (by simpa using hk)
    · exact Or.inr ⟨by simpa using hk1, hk2⟩
  exact hpair.sublist (List.take_sublist _ _)

theorem flatMap_congr_fn {α β : Type} (l : List α) (f g : α → List β)
    (h : ∀ x ∈ l, f x = g x) : l.flatMap f = l.flatMap g := by
  induction l with
  | nil => rfl
  | cons x xs ih =>
    rw [List.flatMap_cons, List.flatMap_cons, h x (List.mem_cons_self _ _)]
    rw [ih (fun y hy => h y (List.mem_cons_of_mem _ hy))]

theorem expandContribs_eq_spec (graph : String → List String)
    (seeds : List (String × ℚ)) (hb : ∀ sv ∈ seeds, sv.2 ≤ 1) :
    expandContribs graph seeds = expandContribsSpec graph seeds := by
  rw [expandContribs, expandContribsSpec]
  refine flatMap_congr_fn _ _ _ ?_
  intro sv hsv
  have h6 : min (sv.2 * (3 / 5)) 1 = sv.2 * (3 / 5) := by
    refine min_eq_left ?_
    nlinarith [hb sv hsv]
  have h3 : min (sv.2 * (3 / 10)) 1 = sv.2 * (3 / 10) := by
    refine min_eq_left ?_
    nlinarith [hb sv hsv]
  rw [h6, h3]

theorem combineMax_none_left (b : Option ℚ) : combineMax none b = b := rfl

/-- C5. After step-1 blending: the dependency expansion takes at most five
seed files, all with strictly positive lexical score bounded by one, in
descending score order with ties broken by ascending path; the expansion
map assigns to every file the maximum of its contributions, where a seed
contributes its score to itself, 0.6 of it to each depth-1 neighbor of the
undirected file graph and 0.3 of it to each depth-2 neighbor; and the final
chunks are the step-1 chunks with priority round3(priority * 0.8 +
e * 0.2) wherever the file received an expansion score e, unchanged
otherwise. -/
theorem C5_dependency_expansion_blend (log : ℚ → ℚ) (chunks : List Chunk)
    (query : String) (w : ℚ) (hlog : ∀ x : ℚ, 1 < x → 0 < log x) :
    ((rerank_chunks_by_task log chunks query w).1 =
      (rerank_step1 log chunks query w).map
        (fun c =>
          match dependency_expansion_scores (rerank_step1 log chunks query w)
              (lexicalByFileOf log chunks query) c.path with
          | some expanded =>
            { c with priority := round3 (c.priority * (4 / 5) + expanded * (1 / 5)) }
          | none => c)) ∧
    (seedsOf (lexicalByFileOf log chunks query)).length ≤ 5 ∧
    (∀ sv ∈ seedsOf (lexicalByFileOf log chunks query), 0 < sv.2 ∧ sv.2 ≤ 1) ∧
    (seedsOf (lexicalByFileOf log chunks query)).Pairwise
      (fun a b => b.2 < a.2 ∨ (a.2 = b.2 ∧ a.1 ≤ b.1)) ∧
    (∀ f, dependency_expansion_scores (rerank_step1 log chunks query w)
        (lexicalByFileOf log chunks query) f =
      expansionSpec
        (dependency_graph (rerank_step1 log chunks query w)
          (((rerank_step1 log chunks query w).map Chunk.path).dedup)
          (symbol_definitions (rerank_step1 log chunks query w)))
        (seedsOf (lexicalByFileOf log chunks query)) f) := by
  have hboundsv : ∀ sv ∈ seedsOf (lexicalByFileOf log chunks query), 0 < sv.2 ∧ sv.2 ≤ 1 := by
    intro sv hsv
    obtain ⟨hmem, hpos⟩ := seedsOf_mem_pos _ sv hsv
    exact ⟨hpos, (lexicalByFileOf_values_bounds log chunks query hlog sv hmem).2⟩
  refine ⟨rerank_chunks_by_task_fst log chunks query w, ?_, hboundsv, seedsOf_sorted _, ?_⟩
  · rw [seedsOf]
    exact le_trans (List.length_take_le _ _) le_rfl
  · intro f
    rw [dependency_expansion_scores]
    by_cases hkf : ((rerank_step1 log chunks query w).map Chunk.path).dedup = []
    · have hcs : rerank_step1 log chunks query w = [] := by
        have := (List.dedup_eq_nil _).mp hkf
        exact List.map_eq_nil_iff.mp this
      have hchunks : chunks = [] := by
        have := rerank_step1_length log chunks query w
        rw [hcs] at this
        exact List.length_eq_zero.mp this.symm
      have hlex : lexicalByFileOf log chunks query = [] := by
        rw [lexicalByFileOf, hchunks]
        rfl
      have hseeds : seedsOf (lexicalByFileOf log chunks query) = [] := by
        rw [hlex, seedsOf]
        simp
      rw [if_pos hkf, hseeds]
      rw [expansionSpec, expandContribsSpec]
      simp [listMax2]
    · rw [if_neg hkf]
      rw [expansion_loop_eq_applyAll]
      rw [expandContribs_eq_spec _ _ (fun sv hsv => (hboundsv sv hsv).2)]
      rw [applyAll_lookup, expansionSpec]
      exact combineMax_none_left _

theorem C5_dependency_expansion_blend_witness :
    (seedsOf (lexicalByFileOf (fun x : ℚ => x - 1) [c4chunk] "alpha")).length ≤ 5 ∧
    (∀ f, dependency_expansion_scores (rerank_step1 (fun x : ℚ => x - 1) [c4chunk] "alpha" (2 / 5))
        (lexicalByFileOf (fun x : ℚ => x - 1) [c4chunk] "alpha") f =
      expansionSpec
        (dependency_graph (rerank_step1 (fun x : ℚ => x - 1) [c4chunk] "alpha" (2 / 5))
          (((rerank_step1 (fun x : ℚ => x - 1) [c4chunk] "alpha" (2 / 5)).map Chunk.path).dedup)
          (symbol_definitions (rerank_step1 (fun x : ℚ => x - 1) [c4chunk] "alpha" (2 / 5))))
        (seedsOf (lexicalByFileOf (fun x : ℚ => x - 1) [c4chunk] "alpha")) f) := by
  have h := C5_dependency_expansion_blend (fun x : ℚ => x - 1) [c4chunk] "alpha" (2 / 5)
    (fun x hx => by simpa using sub_pos.mpr hx)
  exact ⟨h.2.1, h.2.2.2.2⟩

theorem boostRow_id (r : SearchRow) : (boostRow r).chunk_id = r.chunk_id := rfl

theorem foldl_scoredInsert_of_nodup (rows : List SearchRow) :
    ∀ (acc : List SearchRow), (rows.map SearchRow.chunk_id).Nodup →
    (∀ r ∈ rows, ∀ a ∈ acc, a.chunk_id ≠ r.chunk_id) →
    rows.foldl scoredInsert acc = acc ++ rows := by
  induction rows with
  | nil => intro acc _ _; simp
  | cons r rs ih =>
    intro acc hnd hdisj
    rw [List.foldl_cons]
    have hany : (acc.any (fun x => x.chunk_id = r.chunk_id)) = false := by
      rw [List.any_eq_false]
      intro x hx
      simpa using hdisj r (List.mem_cons_self _ _) x hx
    have hstep : scoredInsert acc r = acc ++ [r] := by
      rw [scoredInsert, hany]
      simp
    rw [hstep]
    have hnd' : (rs.map SearchRow.chunk_id).Nodup := by
      rw [List.map_cons] at hnd
      exact (List.nodup_cons.mp hnd).2
    have hhead : r.chunk_id ∉ rs.map SearchRow.chunk_id := by
      rw [List.map_cons] at hnd
      exact (List.nodup_cons.mp hnd).1
    have hdisj' : ∀ q ∈ rs, ∀ a ∈ acc ++ [r], a.chunk_id ≠ q.chunk_id := by
      intro q hq a ha
      rcases List.mem_append.mp ha with ha | ha
      · exact hdisj q (List.mem_cons_of_mem _ hq) a ha
      · have : a = r := by simpa using ha
        subst this
        intro hcontra
        exact hhead (hcontra ▸ List.mem_map_of_mem SearchRow.chunk_id hq)
    rw [ih (acc ++ [r]) hnd' hdisj']
    simp

theorem symbolFold_eq (chunksTbl : List ChunkTblRow) (hits : List String) :
    ∀ (base : List SearchRow), hits.Nodup →
    hits.foldl (symbolStep chunksTbl) base =
      base.map (fun r => if r.chunk_id ∈ hits then boostRow r else r) ++
      (hits.filter (fun cid => !(base.any (fun r => r.chunk_id = cid)))).filterMap
        (fun cid => (chunksTbl.find? (fun c => c.id = cid)).map mkFallback) := by
  induction hits with
  | nil => intro base _; simp
  | cons cid hits ih =>
    intro base hnd
    have hcid : cid ∉ hits := (List.nodup_cons.mp hnd).1
    have hnd' : hits.Nodup := (List.nodup_cons.mp hnd).2
    rw [List.foldl_cons]
    by_cases hb : base.any (fun r => r.chunk_id = cid) = true
    · have hstep : symbolStep chunksTbl base cid =
          base.map (fun x => if x.chunk_id = cid then boostRow x else x) := by
        rw [symbolStep, if_pos hb]
      rw [hstep, ih _ hnd', List.map_map]
      have hmapeq : (base.map
          ((fun r => if r.chunk_id ∈ hits then boostRow r else r) ∘
            (fun x => if x.chunk_id = cid then boostRow x else x))) =
          base.map (fun r => if r.chunk_id ∈ cid :: hits then boostRow r else r) := by
        refine List.map_congr_left ?_
        intro x _
        by_cases hx : x.chunk_id = cid
        · simp [Function.comp, hx, boostRow_id, hcid]
        · simp [Function.comp, hx]
      have hanyeq : ∀ c' : String,
          ((base.map (fun x => if x.chunk_id = cid then boostRow x else x)).any
            (fun r => r.chunk_id = c')) = base.any (fun r => r.chunk_id = c') := by
        intro c'
        rw [List.any_map]
        congr 1
        funext x
        by_cases hx : x.chunk_id = cid
        · simp [Function.comp, hx, boostRow_id]
        · simp [Function.comp, hx]
      have hfiltereq : (hits.filter (fun c' =>
            !((base.map (fun x => if x.chunk_id = cid then boostRow x else x)).any
              (fun r => r.chunk_id = c')))) =
          hits.filter (fun c' => !(base.any (fun r => r.chunk_id = c'))) := by
        refine List.filter_congr ?_
        intro c' _
        rw [hanyeq]
      rw [hmapeq, hfiltereq]
      have hdrop : ((cid :: hits).filter (fun c' => !(base.any (fun r => r.chunk_id = c')))) =
          hits.filter (fun c' => !(base.any (fun r => r.chunk_id = c'))) := by
        rw [List.filter_cons_of_neg]
        simp [hb]
      rw [hdrop]
    · have hb' : (base.any (fun r => r.chunk_id = cid)) = false := by
        simpa using hb
      have hbase : ∀ x ∈ base, x.chunk_id ≠ cid := by
        intro x hx
        have := List.any_eq_false.mp hb' x hx
        simpa using this
      have hmapeq : (base.map (fun r => if r.chunk_id ∈ hits then boostRow r else r)) =
          base.map (fun r => if r.chunk_id ∈ cid :: hits then boostRow r else r) := by
        refine List.map_congr_left ?_
        intro x hx
        simp [List.mem_cons, hbase x hx]
      have hkeep : ((cid :: hits).filter (fun c' => !(base.any (fun r => r.chunk_id = c')))) =
          cid :: hits.filter (fun c' => !(base.any (fun r => r.chunk_id = c'))) := by
        rw [List.filter_cons_of_pos]
        simp [hb']
      cases hfind : chunksTbl.find? (fun c => c.id = cid) with
      | none =>
        have hstep : symbolStep chunksTbl base cid = base := by
          rw [symbolStep, if_neg hb, hfind]
        rw [hstep, ih _ hnd', hmapeq, hkeep, List.filterMap_cons]
        rw [hfind]
        rfl
      | some c =>
        have hcideq : c.id = cid := by
          have := List.find?_some hfind
          simpa using this
        have hstep : symbolStep chunksTbl base cid = base ++ [mkFallback c] := by
          rw [symbolStep, if_neg hb, hfind]
        rw [hstep, ih _ hnd']
        have hfid : (mkFallback c).chunk_id = cid := by
          rw [mkFallback, hcideq]
        have hmap2 : ((base ++ [mkFallback c]).map
            (fun r => if r.chunk_id ∈ hits then boostRow r else r)) =
            base.map (fun r => if r.chunk_id ∈ cid :: hits then boostRow r else r) ++
              [mkFallback c] := by
          rw [List.map_append, hmapeq]
          congr 1
          rw [List.map_cons, List.map_nil, if_neg (hfid ▸ hcid)]
        have hfilter2 : (hits.filter (fun c' =>
              !((base ++ [mkFallback c]).any (fun r => r.chunk_id = c')))) =
            hits.filter (fun c' => !(base.any (fun r => r.chunk_id = c'))) := by
          refine List.filter_congr ?_
          intro c' hc'
          have hne : (mkFallback c).chunk_id ≠ c' := by
            rw [hfid]
            intro hcontra
            exact hcid (hcontra ▸ hc')
          simp [List.any_append, hne]
        rw [hmap2, hfilter2, hkeep, List.filterMap_cons, hfind]
        simp [hcideq, List.append_assoc]

theorem rowLe_iff (a b : SearchRow) : rowLe a b = true ↔ rowKey a ≤ rowKey b := by
  rw [rowLe, decide_eq_true_eq, rowKey, rowKey]
  simp only [ne_eq, then_ne_gt, Prod.Lex.le_iff, cmpQ_lt_iff, cmpQ_eq_iff, cmpS_lt_iff,
    cmpS_eq_iff, cmpN_gt_iff, not_lt, OrderDual.toDual_lt_toDual, OrderDual.toDual_inj,
    Prod.Lex.lt_iff]
  exact or_congr Iff.rfl (and_congr eq_comm Iff.rfl)

theorem row_le_trans (a b c : SearchRow) (hab : rowLe a b = true)
    (hbc : rowLe b c = true) : rowLe a c = true :=
  (rowLe_iff _ _).mpr (le_trans ((rowLe_iff _ _).mp hab) ((rowLe_iff _ _).mp hbc))

theorem row_le_total (a b : SearchRow) : (rowLe a b || rowLe b a) = true := by
  rcases le_total (rowKey a) (rowKey b) with h | h
  · have := (rowLe_iff _ _).mpr h
    simp [this]
  · have := (rowLe_iff _ _).mpr h
    simp [this]

theorem symHits_nil_symbols (tokens : List String) : symHits [] tokens = [] := by
  rw [symHits]
  have h : tokens.flatMap
      (fun t => (([] : List (String × String)).filter (fun s => s.1 = t)).map Prod.snd) = [] := by
    induction tokens with
    | nil => rfl
    | cons t ts ih => simpa using ih
  rw [h, sortedDedupStrings]
  simp

theorem symHits_nodup (symbols : List (String × String)) (tokens : List String) :
    (symHits symbols tokens).Nodup := by
  rw [symHits, sortedDedupStrings]
  exact List.nodup_dedup _

/-- C7, counterexample to the stated truncation: the claim says the final
results are truncated to the requested count N, but query.rs run truncates
to max(N, 1); at N = 0 a matching query still returns one row instead of
zero. -/
theorem C7_result_count_counterexample :
    query_search [c7hit] [] [] "alpha beta" 0 = Except.ok [c7row] ∧
    ([c7row] : List SearchRow) ≠ [] := by
  refine ⟨?_, by simp⟩
  simp only [query_search]
  rw [if_neg (by decide : ¬ tokenize "alpha beta" = [])]
  have h1 : (([c7hit].take (max 0 1 * 5)).map rowOfHit).foldl scoredInsert [] = [c7row] := by
    simp [scoredInsert, c7row]
  rw [h1, symHits_nil_symbols, List.foldl_nil]
  have h2 : ([c7row].mergeSort rowLe) = [c7row] :=
    List.perm_singleton.mp (List.mergeSort_perm _ _)
  rw [h2]
  simp

/-- C7 (amended). Query search against the index, LSP off: full-text
candidates are limited to 5 * max(N, 1); each candidate scores
1 / (1 + |bm25 rank|), always in [0, 1] (the clamp never binds); a
candidate whose id is a symbol hit for some query token gets +0.25 capped
at 1.0, while a symbol-hit chunk outside the candidate set is added at
flat score 0.5 when the chunks table holds its id; the results are this
pool sorted by score descending, then path ascending, then start line
ascending, truncated to max(N, 1) — not to N itself. -/
theorem C7_query_pipeline (ftsRows : List FtsHit) (symbols : List (String × String))
    (chunksTbl : List ChunkTblRow) (task : String) (lim : ℕ)
    (htask : tokenize task ≠ [])
    (hids : ((ftsRows.take (max lim 1 * 5)).map FtsHit.chunk_id).Nodup) :
    (∀ r : ℚ, bm25_to_score r = 1 / (1 + |r|) ∧
      0 ≤ bm25_to_score r ∧ bm25_to_score r ≤ 1) ∧
    (ftsCandidates ftsRows lim).length ≤ 5 * max lim 1 ∧
    query_search ftsRows symbols chunksTbl task lim =
      Except.ok (((queryPool ftsRows symbols chunksTbl task lim).mergeSort rowLe).take
        (max lim 1)) ∧
    ((queryPool ftsRows symbols chunksTbl task lim).mergeSort rowLe).Perm
      (queryPool ftsRows symbols chunksTbl task lim) ∧
    (((queryPool ftsRows symbols chunksTbl task lim).mergeSort rowLe).take
        (max lim 1)).length ≤ max lim 1 ∧
    (((queryPool ftsRows symbols chunksTbl task lim).mergeSort rowLe).take
        (max lim 1)).Pairwise
      (fun a b => b.score < a.score ∨ (a.score = b.score ∧
        (a.path < b.path ∨ (a.path = b.path ∧ a.start_line ≤ b.start_line)))) := by
  refine ⟨?_, ?_, ?_, List.mergeSort_perm _ _, List.length_take_le _ _, ?_⟩
  · intro r
    have hpos : (0 : ℚ) < 1 + |r| := by positivity
    have h0 : (0 : ℚ) ≤ 1 / (1 + |r|) := by positivity
    have h1 : 1 / (1 + |r|) ≤ 1 := by
      rw [div_le_one hpos]
      simp [abs_nonneg]
    rw [bm25_to_score, clamp01, max_eq_left h0, min_eq_left h1]
    exact ⟨rfl, h0, h1⟩
  · rw [ftsCandidates, List.length_map]
    exact le_of_le_of_eq (List.length_take_le _ _) (Nat.mul_comm _ _)
  · simp only [query_search]
    rw [if_neg htask]
    have hnodup : ((ftsCandidates ftsRows lim).map SearchRow.chunk_id).Nodup := by
      rw [ftsCandidates, List.map_map]
      exact hids
    have h1 : ((ftsRows.take (max lim 1 * 5)).map rowOfHit).foldl scoredInsert [] =
        ftsCandidates ftsRows lim := by
      rw [show (ftsRows.take (max lim 1 * 5)).map rowOfHit = ftsCandidates ftsRows lim from rfl]
      rw [foldl_scoredInsert_of_nodup _ [] hnodup (by simp)]
      simp
    rw [h1, symbolFold_eq _ _ _ (symHits_nodup _ _)]
    rfl
  · have hsorted := @List.sorted_mergeSort _ rowLe row_le_trans row_le_total
      (queryPool ftsRows symbols chunksTbl task lim)
    have hpair : ((queryPool ftsRows symbols chunksTbl task lim).mergeSort rowLe).Pairwise
        (fun a b => b.score < a.score ∨ (a.score = b.score ∧
          (a.path < b.path ∨ (a.path = b.path ∧ a.start_line ≤ b.start_line)))) := by
      refine List.Pairwise.imp ?_ hsorted
      intro a b h
      have hk := (rowLe_iff _ _).mp h
      rw [rowKey, rowKey, Prod.Lex.le_iff] at hk
      rcases hk with hk | ⟨hk1, hk2⟩
      · exact Or.inl (by simpa using hk)
      · refine Or.inr ⟨by simpa using hk1, ?_⟩
        rw [Prod.Lex.le_iff] at hk2
        rcases hk2 with hk2 | ⟨hk2a, hk2b⟩
        · exact Or.inl (by simpa using hk2)
        · exact Or.inr ⟨by simpa using hk2a, by simpa using hk2b⟩
    exact hpair.sublist (List.take_sublist _ _)

theorem C7_query_pipeline_witness :
    query_search [c7hit] [("alpha", "c1")] [] "alpha beta" 3 =
      Except.ok (((queryPool [c7hit] [("alpha", "c1")] [] "alpha beta" 3).mergeSort rowLe).take
        (max 3 1)) :=
  (C7_query_pipeline [c7hit] [("alpha", "c1")] [] "alpha beta" 3 (by decide)
    (by decide)).2.2.1

theorem updateFileMeta_path (pf : PreparedFile) (t : String) (f : FileRow) :
    (updateFileMeta pf t f).path = f.path := by
  rw [updateFileMeta]
  split <;> rfl

theorem updateFileMeta_tok (pf : PreparedFile) (t : String) (f : FileRow) :
    (updateFileMeta pf t f).token_estimate = f.token_estimate := by
  rw [updateFileMeta]
  split <;> rfl

theorem updateFileMeta_hash (pf : PreparedFile) (t : String) (f : FileRow) :
    (updateFileMeta pf t f).file_hash = f.file_hash := by
  rw [updateFileMeta]
  split <;> rfl

theorem writeLoop_all_reused (rebuild : PreparedFile → List Chunk)
    (tagsJson : List String → String) (existing : List (String × String)) (t : String)
    (prepared : List PreparedFile)
    (hall : ∀ pf ∈ prepared, lookupHash existing pf.file.relative_path = some pf.hash) :
    ∀ (db : IndexDb) (ri ru : ℕ),
      prepared.foldl (writeFileStep rebuild tagsJson existing t) (db, ri, ru) =
        ({ db with files := metaFold t prepared db.files }, ri, ru + prepared.length) := by
  induction prepared with
  | nil => intro db ri ru; simp [metaFold]
  | cons pf ps ih =>
    intro db ri ru
    rw [List.foldl_cons]
    have hstep : writeFileStep rebuild tagsJson existing t (db, ri, ru) pf =
        ({ db with files := db.files.map (updateFileMeta pf t) }, ri, ru + 1) := by
      simp only [writeFileStep]
      rw [if_pos (hall pf (List.mem_cons_self _ _))]
    rw [hstep, ih (fun q hq => hall q (List.mem_cons_of_mem _ hq))]
    simp only [metaFold, List.foldl_cons, Prod.mk.injEq, List.length_cons]
    exact ⟨trivial, trivial, by omega⟩

theorem foldl_updateFileMeta_cols (t : String) (prepared : List PreparedFile) :
    ∀ fs : List FileRow,
      ((metaFold t prepared fs).map FileRow.path = fs.map FileRow.path) ∧
      ((metaFold t prepared fs).map FileRow.token_estimate =
        fs.map FileRow.token_estimate) ∧
      ((metaFold t prepared fs).map FileRow.file_hash = fs.map FileRow.file_hash) := by
  induction prepared with
  | nil => intro fs; exact ⟨rfl, rfl, rfl⟩
  | cons pf ps ih =>
    intro fs
    simp only [metaFold, List.foldl_cons]
    obtain ⟨h1, h2, h3⟩ := ih (fs.map (updateFileMeta pf t))
    simp only [metaFold] at h1 h2 h3
    refine ⟨?_, ?_, ?_⟩
    · rw [h1, List.map_map]
      exact List.map_congr_left (fun f _ => updateFileMeta_path pf t f)
    · rw [h2, List.map_map]
      exact List.map_congr_left (fun f _ => updateFileMeta_tok pf t f)
    · rw [h3, List.map_map]
      exact List.map_congr_left (fun f _ => updateFileMeta_hash pf t f)

/-- C3. When every prepared file's content hash equals the stored hash:
each loop iteration takes the reuse branch, which rewrites only the
files-row metadata columns (path, token_estimate and file_hash are
preserved pointwise) and increments the reused counter; a whole run over
such input reports files_reused = number of prepared files, zero
reindexed, zero removed, files_indexed = the stored file count, leaves the
chunks, symbols and chunk_fts tables byte-for-byte unchanged, preserves
the path, token_estimate and file_hash columns of files, and never
consults the chunker (the result is the same for every rebuild and tag
serialization function). -/
theorem C3_incremental_reuse (rebuild : PreparedFile → List Chunk)
    (tagsJson : List String → String) (db0 : IndexDb) (files : List FileInfo)
    (prepared : List PreparedFile) (t : String)
    (hall : ∀ pf ∈ prepared,
      lookupHash (db0.files.map (fun f => (f.path, f.file_hash))) pf.file.relative_path =
        some pf.hash)
    (hstale : ∀ p ∈ db0.files.map FileRow.path, p ∈ files.map (fun f => f.relative_path)) :
    (∀ (existing : List (String × String)) (db : IndexDb) (ri ru : ℕ) (pf : PreparedFile),
      lookupHash existing pf.file.relative_path = some pf.hash →
      writeFileStep rebuild tagsJson existing t (db, ri, ru) pf =
        ({ db with files := db.files.map (updateFileMeta pf t) }, ri, ru + 1)) ∧
    (∀ (pf : PreparedFile) (f : FileRow),
      (updateFileMeta pf t f).path = f.path ∧
      (updateFileMeta pf t f).token_estimate = f.token_estimate ∧
      (updateFileMeta pf t f).file_hash = f.file_hash) ∧
    ((write_index rebuild tagsJson db0 files prepared t).1.files_reused = prepared.length ∧
      (write_index rebuild tagsJson db0 files prepared t).1.files_reindexed = 0 ∧
      (write_index rebuild tagsJson db0 files prepared t).1.files_removed = 0 ∧
      (write_index rebuild tagsJson db0 files prepared t).1.files_indexed =
        db0.files.length) ∧
    ((write_index rebuild tagsJson db0 files prepared t).2.chunks = db0.chunks ∧
      (write_index rebuild tagsJson db0 files prepared t).2.symbols = db0.symbols ∧
      (write_index rebuild tagsJson db0 files prepared t).2.fts = db0.fts ∧
      (write_index rebuild tagsJson db0 files prepared t).2.files.map FileRow.path =
        db0.files.map FileRow.path ∧
      (write_index rebuild tagsJson db0 files prepared t).2.files.map
          FileRow.token_estimate = db0.files.map FileRow.token_estimate ∧
      (write_index rebuild tagsJson db0 files prepared t).2.files.map FileRow.file_hash =
        db0.files.map FileRow.file_hash) ∧
    (∀ (rebuild2 : PreparedFile → List Chunk) (tagsJson2 : List String → String),
      write_index rebuild tagsJson db0 files prepared t =
        write_index rebuild2 tagsJson2 db0 files prepared t) := by
  have hstalenil : ((db0.files.map FileRow.path).filter
      (fun p => !(p ∈ files.map (fun f => f.relative_path)))) = [] := by
    rw [List.filter_eq_nil_iff]
    intro p hp
    simp [hstale p hp]
  have hmain : ∀ (rb : PreparedFile → List Chunk) (tj : List String → String),
      write_index rb tj db0 files prepared t =
        (IndexSummary.mk (metaFold t prepared db0.files).length
          db0.chunks.length 0 prepared.length 0,
         { db0 with files := metaFold t prepared db0.files }) := by
    intro rb tj
    simp only [write_index]
    rw [hstalenil, List.foldl_nil, writeLoop_all_reused rb tj _ t prepared hall db0 0 0]
    simp
  obtain ⟨hcol1, hcol2, hcol3⟩ := foldl_updateFileMeta_cols t prepared db0.files
  have hlen : (metaFold t prepared db0.files).length = db0.files.length := by
    have := congrArg List.length hcol1
    simpa [List.length_map] using this
  refine ⟨?_, ?_, ?_, ?_, ?_⟩
  · intro existing db ri ru pf h
    simp only [writeFileStep]
    rw [if_pos h]
  · intro pf f
    exact ⟨updateFileMeta_path pf t f, updateFileMeta_tok pf t f, updateFileMeta_hash pf t f⟩
  · rw [hmain rebuild tagsJson]
    exact ⟨rfl, rfl, rfl, hlen⟩
  · rw [hmain rebuild tagsJson]
    exact ⟨rfl, rfl, rfl, hcol1, hcol2, hcol3⟩
  · intro rb2 tj2
    rw [hmain rebuild tagsJson, hmain rb2 tj2]

theorem C3_incremental_reuse_witness :
    (write_index (fun _ => []) (fun _ => "") c3db [c3fileinfo] [c3prepared]
        "t1").1.files_reused = [c3prepared].length ∧
    (write_index (fun _ => []) (fun _ => "") c3db [c3fileinfo] [c3prepared]
        "t1").1.files_reindexed = 0 ∧
    (write_index (fun _ => []) (fun _ => "") c3db [c3fileinfo] [c3prepared]
        "t1").1.files_removed = 0 ∧
    (write_index (fun _ => []) (fun _ => "") c3db [c3fileinfo] [c3prepared]
        "t1").1.files_indexed = c3db.files.length :=
  (C3_incremental_reuse (fun _ => []) (fun _ => "") c3db [c3fileinfo] [c3prepared] "t1"
    (by decide) (by decide)).2.2.1

end R2P
